import Mathlib

/-!
Multiplicative-to-additive share conversion (`mta.c`).

A shallow embedding of the 256-bit big-integer layer, the reduction modulo the
program's modulus, the digest, the repeating-key XOR mask and `main`, followed by
theorems about them.

Conventions of the embedding:

* a `uint8_t[32]` / `bignum256` is a `List Nat` with 32 entries below 256
  (`IsBn`); index `0` is the most significant byte, as in the C source;
* a C `for` loop that counts down from 31 is a recursion on the number of
  iterations that remain (`i + 1` remaining means the body runs at index `i`);
* a C `for` loop that counts up is a left fold over `List.range`;
* the `while` loop of `bn_mod` takes a fuel argument and returns `none` when the
  fuel runs out before the loop condition fails;
* the random source is the list of the answers that the successive calls of
  `get_random_bytes` receive.
-/

namespace Mta

/-! ## Data model -/

/-- The table `SECP256K1_P` of `mta.c` (lines 39-44), byte for byte. -/
def SECP256K1_P : List Nat :=
  [0xff,0xff,0xff,0xff,0xff,0xff,0xff,0xff,
   0xff,0xff,0xff,0xff,0xff,0xff,0xff,0xff,
   0xff,0xff,0xff,0xff,0xff,0xff,0xff,0xfe,
   0xff,0xff,0xfc,0x2f,0x00,0x00,0x00,0x00]

/-- A well-formed `bignum256`: exactly 32 entries, each one a byte. -/
def IsBn (x : List Nat) : Prop := x.length = 32 ∧ ∀ b ∈ x, b < 256

instance (x : List Nat) : Decidable (IsBn x) := by
  unfold IsBn; infer_instance

/-- The unsigned integer denoted by a big-endian byte string. -/
def beVal : List Nat → Nat
  | [] => 0
  | b :: bs => b * 256 ^ bs.length + beVal bs

/-- The unsigned integer denoted by a little-endian digit string (base 256);
used for the `tmp` array of `bn_mul`, whose entries may exceed 255. -/
def leVal : List Nat → Nat
  | [] => 0
  | b :: bs => b + 256 * leVal bs

/-! ## FixedWidthInteger -/

/-- `bn_copy`: `memcpy` of the 32 bytes. -/
def bn_copy (src : List Nat) : List Nat := src

/-- `bn_read_be`: `memcpy` of the 32 bytes. -/
def bn_read_be (inp : List Nat) : List Nat := inp

/-- `bn_write_be`: `memcpy` of the 32 bytes. -/
def bn_write_be (x : List Nat) : List Nat := x

/-- The C library `memcmp` on the first `n` bytes: zero when they agree, otherwise
the difference of the first pair of bytes that differ (only its sign is fixed by
the C standard). -/
def memcmp : List Nat → List Nat → Nat → Int
  | a :: as, b :: bs, n + 1 => if a = b then memcmp as bs n else (a : Int) - (b : Int)
  | _, _, _ => 0

/-- `bn_cmp` (lines 63-65). -/
def bn_cmp (x y : List Nat) : Int := memcmp x y 32

/-- The `for` loop inside the `while` of `bn_mod` (lines 70-80): one subtraction
of `p` from `x` with borrow, from index 31 down to 0. -/
def bn_mod_sub (p : List Nat) : Nat → List Nat → Int → List Nat
  | 0, x, _ => x
  | i + 1, x, carry =>
    let diff : Int := (x.getD i 0 : Int) - (p.getD i 0 : Int) - carry
    if diff < 0 then bn_mod_sub p i (x.set i ((diff + 256) % 256).toNat) 1
    else bn_mod_sub p i (x.set i (diff % 256).toNat) 0

/-- `bn_mod` (lines 68-82): `while (bn_cmp(x, p) >= 0) x -= p`. Each unit of fuel
pays for one evaluation of the loop condition. -/
def bn_mod : Nat → List Nat → List Nat → Option (List Nat)
  | 0, _, _ => none
  | fuel + 1, x, p =>
    if bn_cmp x p ≥ 0 then bn_mod fuel (bn_mod_sub p 32 x 0) p else some x

/-- The loop of `bn_add` (lines 86-91); `sum & 0xff` and `sum >> 8` on the
`unsigned` sum. -/
def bn_add_loop (y : List Nat) : Nat → List Nat → Nat → List Nat
  | 0, x, _ => x
  | i + 1, x, carry =>
    let sum := (x.getD i 0 + y.getD i 0 + carry) % 2 ^ 32
    bn_add_loop y i (x.set i (sum &&& 0xff)) (sum >>> 8)

/-- `bn_add` (lines 85-92): `x = x + y`, the final carry is dropped. -/
def bn_add (x y : List Nat) : List Nat := bn_add_loop y 32 x 0

/-- The loop of `bn_sub` (lines 96-106); `diff & 0xff` of the adjusted `int`
is its residue modulo 256. -/
def bn_sub_loop (y : List Nat) : Nat → List Nat → Int → List Nat
  | 0, x, _ => x
  | i + 1, x, carry =>
    let diff : Int := (x.getD i 0 : Int) - (y.getD i 0 : Int) - carry
    if diff < 0 then bn_sub_loop y i (x.set i ((diff + 256) % 256).toNat) 1
    else bn_sub_loop y i (x.set i (diff % 256).toNat) 0

/-- `bn_sub` (lines 95-107): `x = x - y`, the final borrow is dropped. -/
def bn_sub (x y : List Nat) : List Nat := bn_sub_loop y 32 x 0

/-- The body of the double loop of `bn_mul` (lines 133-136) on the `uint16_t`
array `tmp`: every store wraps modulo `2^16`. -/
def bn_mul_step (lx ly : List Nat) (i j : Nat) (tmp : List Nat) : List Nat :=
  let prod := (lx.getD i 0 * ly.getD j 0) % 2 ^ 32
  let tmp1 := tmp.set (i + j) ((tmp.getD (i + j) 0 + prod) % 65536)
  let tmp2 := tmp1.set (i + j + 1)
    ((tmp1.getD (i + j + 1) 0 + (tmp1.getD (i + j) 0 >>> 8)) % 65536)
  tmp2.set (i + j) (tmp2.getD (i + j) 0 &&& 0xff)

/-- The inner loop `for (j = 0; j < 32; j++)` of `bn_mul` at a fixed `i`. -/
def bn_mul_row (lx ly : List Nat) (i : Nat) (tmp : List Nat) : List Nat :=
  (List.range 32).foldl (fun t j => bn_mul_step lx ly i j t) tmp

/-- The double loop of `bn_mul` (lines 131-138), started on the zeroed `tmp[64]`. -/
def bn_mul_tmp (lx ly : List Nat) : List Nat :=
  (List.range 32).foldl (fun t i => bn_mul_row lx ly i t) (List.replicate 64 0)

/-- `bn_mul` (lines 120-149): operands turned little-endian, schoolbook partial
sums, the low 32 entries masked to bytes and turned big-endian again. -/
def bn_mul (x y : List Nat) : List Nat :=
  let lx := (List.range 32).map (fun i => x.getD (31 - i) 0)
  let ly := (List.range 32).map (fun i => y.getD (31 - i) 0)
  let tmp := bn_mul_tmp lx ly
  let out_le := (List.range 32).map (fun i => tmp.getD i 0 &&& 0xff)
  (List.range 32).map (fun i => out_le.getD (31 - i) 0)

/-! ## Masker -/

/-- `xor_key` (lines 269-273): `data[i] ^= key32[i % 32]` for `i < len`, stored
back into a `uint8_t`. -/
def xor_key (data : List Nat) (len : Nat) (key32 : List Nat) : List Nat :=
  (List.range len).foldl
    (fun d i => d.set i ((d.getD i 0 ^^^ key32.getD (i % 32) 0) % 256)) data

/-! ## The arithmetic steps of `main` -/

/-- The modulus as `main` reads it (lines 288-289). -/
def bn_p : List Nat := bn_read_be SECP256K1_P

/-- Step 2 of `main` (lines 308-310): `bn_mul` then `bn_mod`. -/
def step_prod (fuel : Nat) (a b : List Nat) : Option (List Nat) :=
  bn_mod fuel (bn_mul a b) bn_p

/-- Step 3 of `main`, the share `d` (lines 327-330): `bn_copy`, `bn_sub`, `bn_mod`. -/
def step_d (fuel : Nat) (prod r : List Nat) : Option (List Nat) :=
  bn_mod fuel (bn_sub (bn_copy prod) r) bn_p

/-- Step 5 of `main`, the check sum (lines 370-373): `bn_copy`, `bn_add`, `bn_mod`. -/
def step_sum (fuel : Nat) (c d : List Nat) : Option (List Nat) :=
  bn_mod fuel (bn_add (bn_copy c) d) bn_p

/-! ## DigestPrimitive -/

/-- `toy_sha256_ctx` (lines 154-158): eight `uint32_t` words, the `uint64_t` bit
count and the 64-byte block buffer. -/
structure toy_sha256_ctx where
  state : List Nat
  bitlen : Nat
  buffer : List Nat

/-- `ROR32(a,b)` (line 160) on a `uint32_t`: the left shift drops the bits that
leave the word. -/
def ROR32 (a b : Nat) : Nat := ((a >>> b) ||| ((a <<< (32 - b)) % 2 ^ 32)) % 2 ^ 32

/-- The table `toy_sha256_k` (lines 162-171). -/
def toy_sha256_k : List Nat :=
  [0x428A2F98,0x71374491,0xB5C0FBCF,0xE9B5DBA5,0x3956C25B,0x59F111F1,0x923F82A4,0xAB1C5ED5,
   0xD807AA98,0x12835B01,0x243185BE,0x550C7DC3,0x72BE5D74,0x80DEB1FE,0x9BDC06A7,0xC19BF174,
   0xE49B69C1,0xEFBE4786,0x0FC19DC6,0x240CA1CC,0x2DE92C6F,0x4A7484AA,0x5CB0A9DC,0x76F988DA,
   0x983E5152,0xA831C66D,0xB00327C8,0xBF597FC7,0xC6E00BF3,0xD5A79147,0x06CA6351,0x14292967,
   0x27B70A85,0x2E1B2138,0x4D2C6DFC,0x53380D13,0x650A7354,0x766A0ABB,0x81C2C92E,0x92722C85,
   0xA2BFE8A1,0xA81A664B,0xC24B8B70,0xC76C51A3,0xD192E819,0xD6990624,0xF40E3585,0x106AA070,
   0x19A4C116,0x1E376C08,0x2748774C,0x34B0BCB5,0x391C0CB3,0x4ED8AA4A,0x5B9CCA4F,0x682E6FF3,
   0x748F82EE,0x78A5636F,0x84C87814,0x8CC70208,0x90BEFFFA,0xA4506CEB,0xBEF9A3F7,0xC67178F2]

/-- The two loops of `toy_sha256_transform` that fill `m[64]` (lines 176-183). The
word assembled from four bytes is taken modulo `2^32`, as the conversion to
`uint32_t` does. -/
def toy_sha256_schedule (data : List Nat) : List Nat :=
  let m0 := (List.range 16).foldl (fun m i =>
      m.set i (((data.getD (4 * i) 0 <<< 24) ||| (data.getD (4 * i + 1) 0 <<< 16)
        ||| (data.getD (4 * i + 2) 0 <<< 8) ||| data.getD (4 * i + 3) 0) % 2 ^ 32))
    (List.replicate 64 0)
  (List.range 48).foldl (fun m n =>
      let i := 16 + n
      let s0 := ROR32 (m.getD (i - 15) 0) 7 ^^^ ROR32 (m.getD (i - 15) 0) 18
        ^^^ (m.getD (i - 15) 0 >>> 3)
      let s1 := ROR32 (m.getD (i - 2) 0) 17 ^^^ ROR32 (m.getD (i - 2) 0) 19
        ^^^ (m.getD (i - 2) 0 >>> 10)
      m.set i ((m.getD (i - 16) 0 + s0 + m.getD (i - 7) 0 + s1) % 2 ^ 32)) m0

/-- The working variables `a` .. `h` of `toy_sha256_transform`. -/
structure toy_sha256_regs where
  a : Nat
  b : Nat
  c : Nat
  d : Nat
  e : Nat
  f : Nat
  g : Nat
  h : Nat

/-- One pass of the compression loop (lines 194-207); `~e` is the complement within
32 bits. -/
def toy_sha256_round (m : List Nat) (v : toy_sha256_regs) (i : Nat) : toy_sha256_regs :=
  let S1 := ROR32 v.e 6 ^^^ ROR32 v.e 11 ^^^ ROR32 v.e 25
  let ch := (v.e &&& v.f) ^^^ ((v.e ^^^ 0xFFFFFFFF) &&& v.g)
  let temp1 := (v.h + S1 + ch + toy_sha256_k.getD i 0 + m.getD i 0) % 2 ^ 32
  let S0 := ROR32 v.a 2 ^^^ ROR32 v.a 13 ^^^ ROR32 v.a 22
  let maj := (v.a &&& v.b) ^^^ (v.a &&& v.c) ^^^ (v.b &&& v.c)
  let temp2 := (S0 + maj) % 2 ^ 32
  { h := v.g, g := v.f, f := v.e, e := (v.d + temp1) % 2 ^ 32,
    d := v.c, c := v.b, b := v.a, a := (temp1 + temp2) % 2 ^ 32 }

/-- `toy_sha256_transform` (lines 173-218). -/
def toy_sha256_transform (ctx : toy_sha256_ctx) (data : List Nat) : toy_sha256_ctx :=
  let m := toy_sha256_schedule data
  let v0 : toy_sha256_regs :=
    { a := ctx.state.getD 0 0, b := ctx.state.getD 1 0, c := ctx.state.getD 2 0,
      d := ctx.state.getD 3 0, e := ctx.state.getD 4 0, f := ctx.state.getD 5 0,
      g := ctx.state.getD 6 0, h := ctx.state.getD 7 0 }
  let v := (List.range 64).foldl (toy_sha256_round m) v0
  { ctx with state :=
      [(ctx.state.getD 0 0 + v.a) % 2 ^ 32, (ctx.state.getD 1 0 + v.b) % 2 ^ 32,
       (ctx.state.getD 2 0 + v.c) % 2 ^ 32, (ctx.state.getD 3 0 + v.d) % 2 ^ 32,
       (ctx.state.getD 4 0 + v.e) % 2 ^ 32, (ctx.state.getD 5 0 + v.f) % 2 ^ 32,
       (ctx.state.getD 6 0 + v.g) % 2 ^ 32, (ctx.state.getD 7 0 + v.h) % 2 ^ 32] }

/-- `toy_sha256_init` (lines 220-231). -/
def toy_sha256_init : toy_sha256_ctx :=
  { state := [0x6A09E667, 0xBB67AE85, 0x3C6EF372, 0xA54FF53A,
              0x510E527F, 0x9B05688C, 0x1F83D9AB, 0x5BE0CD19],
    bitlen := 0,
    buffer := List.replicate 64 0 }

/-- `toy_sha256_update` (lines 233-241) on the first `len` bytes of `data`. -/
def toy_sha256_update (ctx : toy_sha256_ctx) (data : List Nat) (len : Nat) : toy_sha256_ctx :=
  (List.range len).foldl (fun ctx i =>
    let ctx1 : toy_sha256_ctx :=
      { ctx with buffer := ctx.buffer.set ((ctx.bitlen >>> 3) &&& 63) (data.getD i 0) }
    let ctx2 : toy_sha256_ctx := { ctx1 with bitlen := (ctx1.bitlen + 8) % 2 ^ 64 }
    if ((ctx2.bitlen >>> 3) &&& 63) = 0 then toy_sha256_transform ctx2 ctx2.buffer
    else ctx2) ctx

/-- The last loop of `toy_sha256_final` (lines 261-266): the eight state words
written big-endian into `out[32]`. -/
def toy_sha256_out (state : List Nat) : List Nat :=
  (List.range 8).foldl (fun out j =>
    (((out.set (4 * j + 0) ((state.getD j 0 >>> 24) % 256)).set (4 * j + 1)
      ((state.getD j 0 >>> 16) % 256)).set (4 * j + 2)
      ((state.getD j 0 >>> 8) % 256)).set (4 * j + 3) (state.getD j 0 % 256))
    (List.replicate 32 0)

/-- `toy_sha256_final` (lines 243-267): the `0x80` byte, zero fill (with an extra
block when fewer than eight bytes are left), the bit count big-endian, the last
block, and the output bytes. Returns the final context and `out`. -/
def toy_sha256_final (ctx : toy_sha256_ctx) : toy_sha256_ctx × List Nat :=
  let bitlen_be := ctx.bitlen
  let i0 := (ctx.bitlen >>> 3) &&& 63
  let buf1 := ctx.buffer.set i0 0x80
  let i1 := i0 + 1
  let ctx1 : toy_sha256_ctx := { ctx with buffer := buf1 }
  let ctx2 : toy_sha256_ctx :=
    if i1 > 56 then
      let bufz := (List.range (64 - i1)).foldl (fun b k => b.set (i1 + k) 0) buf1
      toy_sha256_transform { ctx1 with buffer := bufz } bufz
    else ctx1
  let i2 := if i1 > 56 then 0 else i1
  let buf3 := (List.range (56 - i2)).foldl (fun b k => b.set (i2 + k) 0) ctx2.buffer
  let buf4 := (List.range 8).foldl
    (fun b n => b.set (56 + n) ((bitlen_be >>> ((7 - n) * 8)) % 256)) buf3
  let ctx5 := toy_sha256_transform { ctx2 with buffer := buf4 } buf4
  (ctx5, toy_sha256_out ctx5.state)

/-- The digest as `main` computes it (lines 342-345): init, update over `len` bytes,
final. -/
def toy_sha256 (data : List Nat) (len : Nat) : List Nat :=
  (toy_sha256_final (toy_sha256_update toy_sha256_init data len)).2

/-- The bytes of an ASCII string, as a C string literal holds them. -/
def asciiBytes (s : String) : List Nat := s.toList.map Char.toNat

/-- Hexadecimal text to bytes, two digits per byte (used to write digests). -/
def hexBytes (s : String) : List Nat :=
  let digit (c : Char) : Nat :=
    if c.toNat ≥ 97 then c.toNat - 87 else if c.toNat ≥ 65 then c.toNat - 55 else c.toNat - 48
  let ds := s.toList.map digit
  (List.range (ds.length / 2)).map (fun i => ds.getD (2 * i) 0 * 16 + ds.getD (2 * i + 1) 0)

/-! ## MtAConversion: `main` -/

/-- One call of `get_random_bytes(buf, 32)` (lines 10-30). The random source is the
list of the answers it will give to the successive calls: `some bytes` when the
buffer is filled and 1 is returned, `none` when 0 is returned. A source with no
answer left fails. Returns the answer and the rest of the source. -/
def get_random_bytes :
    List (Option (List Nat)) → Option (List Nat) × List (Option (List Nat))
  | [] => (none, [])
  | r :: rest => (r, rest)

/-- What `main` writes to standard output: the four hexadecimal lines (lines
356-359) and the verdict (lines 377 and 379). -/
inductive Line where
  | a (bytes : List Nat)
  | b (bytes : List Nat)
  | enc_c (bytes : List Nat)
  | enc_d (bytes : List Nat)
  | success
  | fail
  deriving DecidableEq

/-- The values `main` computes, in program order; `none` for a statement that was
not reached. `c_masked` and `d_masked` are `c_enc` and `d_enc` as printed,
`check_c` and `check_d` the unmasked values of step 5. -/
structure Vars where
  a : Option (List Nat) := none
  b : Option (List Nat) := none
  prod : Option (List Nat) := none
  r : Option (List Nat) := none
  c : Option (List Nat) := none
  d : Option (List Nat) := none
  hashed_key : Option (List Nat) := none
  c_masked : Option (List Nat) := none
  d_masked : Option (List Nat) := none
  check_c : Option (List Nat) := none
  check_d : Option (List Nat) := none
  sum : Option (List Nat) := none

/-- The observable result of one run of `main`: the exit status, the number of
calls of `get_random_bytes`, what was written to the two streams, and the values
computed. -/
structure Run where
  exit : Nat
  requests : Nat
  stderr : List String
  stdout : List Line
  vars : Vars

/-- The twelve values of a run, in the order of the fields of `Vars`. -/
def Vars.toList (v : Vars) : List (Option (List Nat)) :=
  [v.a, v.b, v.prod, v.r, v.c, v.d, v.hashed_key, v.c_masked, v.d_masked,
   v.check_c, v.check_d, v.sum]

/-- `main` (lines 286-383). `fuel` bounds every `while` loop of `bn_mod`; the
result is `none` when one of them runs out of fuel. -/
def main (fuel : Nat) (rng : List (Option (List Nat))) : Option Run :=
  let bn_p := bn_read_be SECP256K1_P
  match get_random_bytes rng with
  | (none, _) =>
    some { exit := 1, requests := 1, stderr := ["RNG fail.\n"], stdout := [], vars := {} }
  | (some a_raw, rng1) =>
  match get_random_bytes rng1 with
  | (none, _) =>
    some { exit := 1, requests := 2, stderr := ["RNG fail.\n"], stdout := [], vars := {} }
  | (some b_raw, rng2) =>
  match bn_mod fuel (bn_read_be a_raw) bn_p with
  | none => none
  | some bn_a =>
  match bn_mod fuel (bn_read_be b_raw) bn_p with
  | none => none
  | some bn_b =>
  let a_be := bn_write_be bn_a
  let b_be := bn_write_be bn_b
  match bn_mod fuel (bn_mul bn_a bn_b) bn_p with
  | none => none
  | some bn_prod =>
  match get_random_bytes rng2 with
  | (none, _) =>
    some { exit := 1, requests := 3, stderr := ["RNG fail.\n"], stdout := [],
           vars := { a := some bn_a, b := some bn_b, prod := some bn_prod } }
  | (some r_be, rng3) =>
  match bn_mod fuel (bn_read_be r_be) bn_p with
  | none => none
  | some bn_r =>
  let bn_c := bn_copy bn_r
  match bn_mod fuel (bn_sub (bn_copy bn_prod) bn_r) bn_p with
  | none => none
  | some bn_d =>
  match get_random_bytes rng3 with
  | (none, _) =>
    some { exit := 1, requests := 4, stderr := ["Ephemeral RNG fail.\n"], stdout := [],
           vars := { a := some bn_a, b := some bn_b, prod := some bn_prod,
                     r := some bn_r, c := some bn_c, d := some bn_d } }
  | (some ephemeral_key, _) =>
  let hashed_key := toy_sha256 ephemeral_key 32
  let c_enc := xor_key (bn_write_be bn_c) 32 hashed_key
  let d_enc := xor_key (bn_write_be bn_d) 32 hashed_key
  let printed := [Line.a a_be, Line.b b_be, Line.enc_c c_enc, Line.enc_d d_enc]
  let c_dec := xor_key c_enc 32 hashed_key
  let d_dec := xor_key d_enc 32 hashed_key
  let check_c := bn_read_be c_dec
  let check_d := bn_read_be d_dec
  match bn_mod fuel (bn_add (bn_copy check_c) check_d) bn_p with
  | none => none
  | some sum =>
  let verdict := if bn_cmp sum bn_prod = 0 then Line.success else Line.fail
  some { exit := 0, requests := 4, stderr := [], stdout := printed ++ [verdict],
         vars := { a := some bn_a, b := some bn_b, prod := some bn_prod,
                   r := some bn_r, c := some bn_c, d := some bn_d,
                   hashed_key := some hashed_key,
                   c_masked := some c_enc, d_masked := some d_enc,
                   check_c := some check_c, check_d := some check_d,
                   sum := some sum } }

/-! ## Instrumented and idealised variants used to state resource claims -/

/-- `bn_mod` with a counter: the second component is the number of times the body
of the `while` loop ran, that is the number of subtractions of `p`. -/
def bn_mod_count : Nat → List Nat → List Nat → Option (List Nat × Nat)
  | 0, _, _ => none
  | fuel + 1, x, p =>
    if bn_cmp x p ≥ 0 then
      (bn_mod_count fuel (bn_mod_sub p 32 x 0) p).map (fun rn => (rn.1, rn.2 + 1))
    else some (x, 0)

/-- The little-endian copy `lx` / `ly` that `bn_mul` makes of an operand
(lines 123-126). -/
def bn_mul_le (x : List Nat) : List Nat := (List.range 32).map (fun i => x.getD (31 - i) 0)

/-- The array `tmp` of `bn_mul` just before the loop body runs at `(i, j)`: rows
`0 .. i - 1` are complete and row `i` has run for `0 .. j - 1`. -/
def bn_mul_state (lx ly : List Nat) (i j : Nat) : List Nat :=
  (List.range j).foldl (fun t j => bn_mul_step lx ly i j t)
    ((List.range i).foldl (fun t i => bn_mul_row lx ly i t) (List.replicate 64 0))

/-- The loop body of `bn_mul` with accumulators of unbounded width: the same three
statements without the wrap modulo `2^16` at the stores. -/
def bn_mul_step_wide (lx ly : List Nat) (i j : Nat) (tmp : List Nat) : List Nat :=
  let prod := lx.getD i 0 * ly.getD j 0
  let tmp1 := tmp.set (i + j) (tmp.getD (i + j) 0 + prod)
  let tmp2 := tmp1.set (i + j + 1) (tmp1.getD (i + j + 1) 0 + (tmp1.getD (i + j) 0 >>> 8))
  tmp2.set (i + j) (tmp2.getD (i + j) 0 &&& 0xff)

/-- The inner loop of `bn_mul` with unbounded accumulators. -/
def bn_mul_row_wide (lx ly : List Nat) (i : Nat) (tmp : List Nat) : List Nat :=
  (List.range 32).foldl (fun t j => bn_mul_step_wide lx ly i j t) tmp

/-- The double loop of `bn_mul` with unbounded accumulators. -/
def bn_mul_tmp_wide (lx ly : List Nat) : List Nat :=
  (List.range 32).foldl (fun t i => bn_mul_row_wide lx ly i t) (List.replicate 64 0)

/-- `bn_mul` with unbounded accumulators. -/
def bn_mul_wide (x y : List Nat) : List Nat :=
  let lx := (List.range 32).map (fun i => x.getD (31 - i) 0)
  let ly := (List.range 32).map (fun i => y.getD (31 - i) 0)
  let tmp := bn_mul_tmp_wide lx ly
  let out_le := (List.range 32).map (fun i => tmp.getD i 0 &&& 0xff)
  (List.range 32).map (fun i => out_le.getD (31 - i) 0)

/-! ## Fixed operands used at the concrete checks -/

/-- The 32-byte big-endian buffer holding a value below 256. -/
def bnOfByte (b : Nat) : List Nat := List.replicate 31 0 ++ [b]

/-- The buffer whose value is one below the program's modulus. -/
def p_minus_1 : List Nat :=
  [0xff,0xff,0xff,0xff,0xff,0xff,0xff,0xff,
   0xff,0xff,0xff,0xff,0xff,0xff,0xff,0xff,
   0xff,0xff,0xff,0xff,0xff,0xff,0xff,0xfe,
   0xff,0xff,0xfc,0x2e,0xff,0xff,0xff,0xff]

/-- The buffer of 32 bytes `0xff`, the largest 256-bit value. -/
def bn_max : List Nat := List.replicate 32 0xff

/-! ## Loop invariant of `bn_mul` -/

/-- The state of `tmp` just before the body of the double loop runs at `(i, j)`
(with `j = 32` standing for the end of row `i`): every entry is a byte except the
one at `i + j`, which also holds the carry of the previous step; nothing above
`i + 32` has been written; and the digits add up to the partial product. -/
structure MulInv (lx ly : List Nat) (i j : Nat) (tmp : List Nat) : Prop where
  len : tmp.length = 64
  small : ∀ m, m ≠ i + j → tmp.getD m 0 ≤ 255
  cur : tmp.getD (i + j) 0 ≤ 510
  top : j = 32 → tmp.getD (i + 32) 0 ≤ 255
  zero : ∀ m, i + 32 < m → tmp.getD m 0 = 0
  zero_top : j < 32 → tmp.getD (i + 32) 0 = 0
  val : leVal tmp =
    leVal (lx.take i) * leVal ly + lx.getD i 0 * 256 ^ i * leVal (ly.take j)

/-! ## Lists as byte buffers: auxiliary facts -/

theorem getD_set_self (l : List Nat) (i v : Nat) (h : i < l.length) :
    (l.set i v).getD i 0 = v := by
  induction l generalizing i with
  | nil => simp at h
  | cons a l ih =>
    cases i with
    | zero => simp
    | succ i => simpa using ih i (by simpa using h)

theorem getD_set_other (l : List Nat) (i k v : Nat) (h : k ≠ i) :
    (l.set i v).getD k 0 = l.getD k 0 := by
  induction l generalizing i k with
  | nil => simp
  | cons a l ih =>
    cases i with
    | zero =>
      cases k with
      | zero => exact absurd rfl h
      | succ k => simp
    | succ i =>
      cases k with
      | zero => simp
      | succ k => simpa using ih i k (by omega)

theorem take_set_self (l : List Nat) (i v : Nat) : (l.set i v).take i = l.take i := by
  induction l generalizing i with
  | nil => simp
  | cons a l ih =>
    cases i with
    | zero => simp
    | succ i => simp [ih i]

theorem take_succ_getD (l : List Nat) (i : Nat) (h : i < l.length) :
    l.take (i + 1) = l.take i ++ [l.getD i 0] := by
  induction l generalizing i with
  | nil => simp at h
  | cons a l ih =>
    cases i with
    | zero => simp
    | succ i =>
      have := ih i (by simpa using h)
      simp only [List.take_succ_cons, List.cons_append, List.getD_cons_succ]
      rw [this]

theorem getD_lt_of_bytes (l : List Nat) (h : ∀ b ∈ l, b < 256) (i : Nat) :
    l.getD i 0 < 256 := by
  induction l generalizing i with
  | nil => simp
  | cons a l ih =>
    cases i with
    | zero => simpa using h a (by simp)
    | succ i => simpa using ih (fun b hb => h b (by simp [hb])) i

theorem beVal_append (l m : List Nat) :
    beVal (l ++ m) = beVal l * 256 ^ m.length + beVal m := by
  induction l with
  | nil => simp [beVal]
  | cons a l ih =>
    show beVal (a :: (l ++ m)) = _
    simp only [beVal, ih, List.length_append, pow_add]
    ring

theorem beVal_snoc (l : List Nat) (b : Nat) : beVal (l ++ [b]) = beVal l * 256 + b := by
  rw [beVal_append]; simp [beVal]

theorem beVal_lt (l : List Nat) (h : ∀ b ∈ l, b < 256) : beVal l < 256 ^ l.length := by
  induction l with
  | nil => simp [beVal]
  | cons a l ih =>
    have ha : a < 256 := h a (by simp)
    have hl := ih (fun b hb => h b (by simp [hb]))
    have h1 : a * 256 ^ l.length ≤ 255 * 256 ^ l.length :=
      Nat.mul_le_mul_right _ (by omega)
    simp only [beVal, List.length_cons, pow_succ]
    omega

theorem bytes_set (x : List Nat) (i v : Nat) (hx : ∀ b ∈ x, b < 256) (hv : v < 256) :
    ∀ b ∈ x.set i v, b < 256 := by
  intro b hb
  rcases List.mem_or_eq_of_mem_set hb with h | h
  · exact hx b h
  · omega

/-! ## The borrow loop shared by `bn_mod` and `bn_sub` -/

/-- Running the borrow loop over the indices below `i` leaves the entries from `i`
on untouched and replaces the leading `i` bytes by those of the difference of the
leading parts, minus the incoming borrow, modulo `256 ^ i`. -/
theorem bn_mod_sub_spec (y : List Nat) (hy : ∀ b ∈ y, b < 256) :
    ∀ (i : Nat) (x : List Nat) (c : Int), i ≤ x.length → i ≤ y.length →
      (∀ b ∈ x, b < 256) → (c = 0 ∨ c = 1) →
      (bn_mod_sub y i x c).length = x.length ∧
      (∀ k, i ≤ k → (bn_mod_sub y i x c).getD k 0 = x.getD k 0) ∧
      (∀ b ∈ (bn_mod_sub y i x c).take i, b < 256) ∧
      ∃ bout : Int, (bout = 0 ∨ bout = 1) ∧
        (beVal ((bn_mod_sub y i x c).take i) : Int) =
          beVal (x.take i) - beVal (y.take i) - c + bout * 256 ^ i := by
  intro i
  induction i with
  | zero =>
    intro x c _ _ _ hc
    refine ⟨rfl, fun _ _ => rfl, by simp, c, hc, ?_⟩
    simp [bn_mod_sub, beVal]
  | succ i ih =>
    intro x c hi hiy hx hc
    have hxi : x.getD i 0 < 256 := getD_lt_of_bytes x hx i
    have hyi : y.getD i 0 < 256 := getD_lt_of_bytes y hy i
    obtain ⟨v, c', hrec, hv, hc', heq⟩ : ∃ (v : Nat) (c' : Int),
        bn_mod_sub y (i + 1) x c = bn_mod_sub y i (x.set i v) c' ∧ v < 256 ∧
        (c' = 0 ∨ c' = 1) ∧
        (v : Int) - 256 * c' = (x.getD i 0 : Int) - (y.getD i 0 : Int) - c := by
      simp only [bn_mod_sub]
      split_ifs with hd
      · refine ⟨_, 1, rfl, ?_, Or.inr rfl, ?_⟩ <;> omega
      · refine ⟨_, 0, rfl, ?_, Or.inl rfl, ?_⟩ <;> omega
    rw [hrec]
    have hx' : ∀ b ∈ x.set i v, b < 256 := bytes_set x i v hx hv
    have hlen' : i ≤ (x.set i v).length := by simp; omega
    obtain ⟨h1, h2, h3, bout, hb, h4⟩ := ih (x.set i v) c' hlen' (by omega) hx' hc'
    have hri : (bn_mod_sub y i (x.set i v) c').getD i 0 = v := by
      rw [h2 i le_rfl]; exact getD_set_self x i v (by omega)
    have hrl : i < (bn_mod_sub y i (x.set i v) c').length := by
      rw [h1]; simp; omega
    have htk : (bn_mod_sub y i (x.set i v) c').take (i + 1)
        = (bn_mod_sub y i (x.set i v) c').take i ++ [v] := by
      rw [take_succ_getD _ i hrl, hri]
    refine ⟨by simpa using h1, ?_, ?_, bout, hb, ?_⟩
    · intro k hk
      rw [h2 k (by omega), getD_set_other x i k v (by omega)]
    · rw [htk]
      intro b hb
      rcases List.mem_append.1 hb with hb | hb
      · exact h3 b hb
      · simp at hb; omega
    · rw [take_set_self] at h4
      rw [htk, beVal_snoc, take_succ_getD x i (by omega), take_succ_getD y i (by omega),
        beVal_snoc, beVal_snoc]
      push_cast
      linear_combination 256 * h4 + heq

/-- On well-formed operands one run of the borrow loop of `bn_mod` yields a
well-formed value: the difference when no borrow leaves the top byte, the
difference plus `2^256` otherwise. -/
theorem bn_mod_sub_full (x y : List Nat) (hx : IsBn x) (hy : IsBn y) :
    IsBn (bn_mod_sub y 32 x 0) ∧
    beVal (bn_mod_sub y 32 x 0) =
      if beVal y ≤ beVal x then beVal x - beVal y else beVal x + 2 ^ 256 - beVal y := by
  obtain ⟨h1, -, h3, bout, hb, h4⟩ :=
    bn_mod_sub_spec y hy.2 32 x 0 (by rw [hx.1]) (by rw [hy.1]) hx.2 (Or.inl rfl)
  have hr : (bn_mod_sub y 32 x 0).take 32 = bn_mod_sub y 32 x 0 :=
    List.take_of_length_le (by rw [h1, hx.1])
  have hxt : x.take 32 = x := List.take_of_length_le (by rw [hx.1])
  have hyt : y.take 32 = y := List.take_of_length_le (by rw [hy.1])
  rw [hr] at h3 h4
  rw [hxt, hyt] at h4
  have hlen : (bn_mod_sub y 32 x 0).length = 32 := by rw [h1, hx.1]
  have hrlt := beVal_lt _ h3
  have hxlt := beVal_lt x hx.2
  have hylt := beVal_lt y hy.2
  rw [hlen] at hrlt
  rw [hx.1] at hxlt
  rw [hy.1] at hylt
  refine ⟨⟨hlen, h3⟩, ?_⟩
  split_ifs with hle <;> rcases hb with hb | hb <;> subst hb <;> omega

/-! ## Comparison -/

/-- On byte strings of the same length `memcmp` orders as the big-endian values do. -/
theorem memcmp_sign : ∀ (x y : List Nat) (n : Nat), x.length = n → y.length = n →
    (∀ b ∈ x, b < 256) → (∀ b ∈ y, b < 256) →
    (memcmp x y n < 0 ↔ beVal x < beVal y) ∧ (memcmp x y n = 0 ↔ beVal x = beVal y) := by
  intro x
  induction x with
  | nil =>
    intro y n hx hy _ _
    have : y = [] := by
      cases y with
      | nil => rfl
      | cons b bs => simp at hx; subst hx; simp at hy
    subst this
    simp [memcmp, beVal]
  | cons a as ih =>
    intro y n hx hy hbx hby
    cases y with
    | nil => simp at hy; subst hy; simp at hx
    | cons b bs =>
      cases n with
      | zero => simp at hx
      | succ n =>
        have hxl : as.length = n := by simpa using hx
        have hyl : bs.length = n := by simpa using hy
        have hA := beVal_lt as (fun c hc => hbx c (by simp [hc]))
        have hB := beVal_lt bs (fun c hc => hby c (by simp [hc]))
        rw [hxl] at hA
        rw [hyl] at hB
        simp only [memcmp, beVal, hxl, hyl]
        by_cases hab : a = b
        · subst hab
          simp only [if_true]
          have := ih bs n hxl hyl (fun c hc => hbx c (by simp [hc]))
            (fun c hc => hby c (by simp [hc]))
          constructor
          · rw [this.1]; omega
          · rw [this.2]; omega
        · simp only [if_neg hab]
          rcases Nat.lt_or_gt_of_ne hab with hlt | hgt
          · have h1 : (a + 1) * 256 ^ n ≤ b * 256 ^ n := Nat.mul_le_mul_right _ hlt
            have h2 : (a + 1) * 256 ^ n = a * 256 ^ n + 256 ^ n := by ring
            constructor
            · constructor
              · intro _; omega
              · intro _; omega
            · constructor
              · intro h; omega
              · intro h; omega
          · have h1 : (b + 1) * 256 ^ n ≤ a * 256 ^ n := Nat.mul_le_mul_right _ hgt
            have h2 : (b + 1) * 256 ^ n = b * 256 ^ n + 256 ^ n := by ring
            constructor
            · constructor
              · intro h; omega
              · intro h; omega
            · constructor
              · intro h; omega
              · intro h; omega

/-- `bn_cmp` reports "not below" exactly when the first value is at least the second. -/
theorem bn_cmp_ge_iff (x y : List Nat) (hx : IsBn x) (hy : IsBn y) :
    bn_cmp x y ≥ 0 ↔ beVal y ≤ beVal x := by
  have h := (memcmp_sign x y 32 hx.1 hy.1 hx.2 hy.2).1
  unfold bn_cmp
  constructor
  · intro hge
    by_contra hlt
    have : memcmp x y 32 < 0 := h.2 (by omega)
    omega
  · intro hle
    by_contra hlt
    have : beVal x < beVal y := h.1 (by omega)
    omega

/-! ## Reduction by the program's modulus -/

theorem bn_p_isBn : IsBn bn_p := by decide

/-- The value `main` reduces by. -/
theorem beVal_bn_p : beVal bn_p = 2 ^ 256 - 2 ^ 64 - 977 * 2 ^ 32 := by decide

/-- A value already below the modulus leaves `bn_mod` at the first test. -/
theorem bn_mod_of_lt (fuel : Nat) (x : List Nat) (hx : IsBn x)
    (hlt : beVal x < beVal bn_p) : bn_mod (fuel + 1) x bn_p = some x := by
  have h := bn_cmp_ge_iff x bn_p hx bn_p_isBn
  have hn : ¬ bn_cmp x bn_p ≥ 0 := fun hge => by
    have := h.1 hge
    omega
  simp only [bn_mod, if_neg hn]

/-- With the program's modulus the loop of `bn_mod` stops within two tests on every
well-formed input and leaves the canonical residue. -/
theorem bn_mod_reduce (fuel : Nat) (hf : 2 ≤ fuel) (x : List Nat) (hx : IsBn x) :
    ∃ r, bn_mod fuel x bn_p = some r ∧ IsBn r ∧
      beVal r = beVal x % beVal bn_p ∧ beVal r < beVal bn_p := by
  obtain ⟨g, rfl⟩ : ∃ g, fuel = g + 2 := ⟨fuel - 2, by omega⟩
  have hP := beVal_bn_p
  have hxlt := beVal_lt x hx.2
  rw [hx.1] at hxlt
  by_cases hlt : beVal x < beVal bn_p
  · exact ⟨x, bn_mod_of_lt (g + 1) x hx hlt, hx, (Nat.mod_eq_of_lt hlt).symm, hlt⟩
  · have hge : bn_cmp x bn_p ≥ 0 := (bn_cmp_ge_iff x bn_p hx bn_p_isBn).2 (by omega)
    obtain ⟨hbn, hval⟩ := bn_mod_sub_full x bn_p hx bn_p_isBn
    rw [if_pos (by omega)] at hval
    have hlt' : beVal (bn_mod_sub bn_p 32 x 0) < beVal bn_p := by omega
    refine ⟨bn_mod_sub bn_p 32 x 0, ?_, hbn, ?_, hlt'⟩
    · show bn_mod (g + 1 + 1) x bn_p = _
      simp only [bn_mod, if_pos hge]
      exact bn_mod_of_lt g _ hbn hlt'
    · rw [hval, Nat.mod_eq_sub_mod (by omega), Nat.mod_eq_of_lt (by omega)]

/-! ## `bn_sub` and `bn_add` -/

theorem and_255 (s : Nat) : s &&& 0xff = s % 256 := Nat.and_pow_two_sub_one_eq_mod s 8

theorem shr_8 (s : Nat) : s >>> 8 = s / 256 := Nat.shiftRight_eq_div_pow s 8

/-- The loop of `bn_sub` is the loop inside `bn_mod`. -/
theorem bn_sub_loop_eq (y : List Nat) :
    ∀ (i : Nat) (x : List Nat) (c : Int), bn_sub_loop y i x c = bn_mod_sub y i x c := by
  intro i
  induction i with
  | zero => intro x c; rfl
  | succ i ih => intro x c; simp only [bn_sub_loop, bn_mod_sub, ih]

/-- On well-formed operands `bn_sub` yields the difference, wrapped by `2^256` when
the subtrahend is the larger one. -/
theorem bn_sub_full (x y : List Nat) (hx : IsBn x) (hy : IsBn y) :
    IsBn (bn_sub x y) ∧
    beVal (bn_sub x y) =
      if beVal y ≤ beVal x then beVal x - beVal y else beVal x + 2 ^ 256 - beVal y := by
  unfold bn_sub
  rw [bn_sub_loop_eq]
  exact bn_mod_sub_full x y hx hy

/-- Running the carry loop of `bn_add` over the indices below `i`. -/
theorem bn_add_loop_spec (y : List Nat) (hy : ∀ b ∈ y, b < 256) :
    ∀ (i : Nat) (x : List Nat) (c : Nat), i ≤ x.length → i ≤ y.length →
      (∀ b ∈ x, b < 256) → c ≤ 1 →
      (bn_add_loop y i x c).length = x.length ∧
      (∀ k, i ≤ k → (bn_add_loop y i x c).getD k 0 = x.getD k 0) ∧
      (∀ b ∈ (bn_add_loop y i x c).take i, b < 256) ∧
      ∃ cout : Nat, cout ≤ 1 ∧
        beVal ((bn_add_loop y i x c).take i) + cout * 256 ^ i =
          beVal (x.take i) + beVal (y.take i) + c := by
  intro i
  induction i with
  | zero =>
    intro x c _ _ _ hc
    refine ⟨rfl, fun _ _ => rfl, by simp, c, hc, ?_⟩
    simp [bn_add_loop, beVal]
  | succ i ih =>
    intro x c hi hiy hx hc
    have hxi : x.getD i 0 < 256 := getD_lt_of_bytes x hx i
    have hyi : y.getD i 0 < 256 := getD_lt_of_bytes y hy i
    obtain ⟨v, c', hrec, hv, hc', heq⟩ : ∃ (v c' : Nat),
        bn_add_loop y (i + 1) x c = bn_add_loop y i (x.set i v) c' ∧ v < 256 ∧
        c' ≤ 1 ∧ v + 256 * c' = x.getD i 0 + y.getD i 0 + c := by
      simp only [bn_add_loop, and_255, shr_8]
      refine ⟨_, _, rfl, ?_, ?_, ?_⟩ <;> omega
    rw [hrec]
    have hx' : ∀ b ∈ x.set i v, b < 256 := bytes_set x i v hx hv
    have hlen' : i ≤ (x.set i v).length := by simp; omega
    obtain ⟨h1, h2, h3, cout, hb, h4⟩ := ih (x.set i v) c' hlen' (by omega) hx' hc'
    have hri : (bn_add_loop y i (x.set i v) c').getD i 0 = v := by
      rw [h2 i le_rfl]; exact getD_set_self x i v (by omega)
    have hrl : i < (bn_add_loop y i (x.set i v) c').length := by
      rw [h1]; simp; omega
    have htk : (bn_add_loop y i (x.set i v) c').take (i + 1)
        = (bn_add_loop y i (x.set i v) c').take i ++ [v] := by
      rw [take_succ_getD _ i hrl, hri]
    refine ⟨by simpa using h1, ?_, ?_, cout, hb, ?_⟩
    · intro k hk
      rw [h2 k (by omega), getD_set_other x i k v (by omega)]
    · rw [htk]
      intro b hb
      rcases List.mem_append.1 hb with hb | hb
      · exact h3 b hb
      · simp at hb; omega
    · rw [take_set_self] at h4
      rw [htk, beVal_snoc, take_succ_getD x i (by omega), take_succ_getD y i (by omega),
        beVal_snoc, beVal_snoc]
      linear_combination 256 * h4 + heq

/-- On well-formed operands `bn_add` yields the sum modulo `2^256`. -/
theorem bn_add_full (x y : List Nat) (hx : IsBn x) (hy : IsBn y) :
    IsBn (bn_add x y) ∧ beVal (bn_add x y) = (beVal x + beVal y) % 2 ^ 256 := by
  unfold bn_add
  obtain ⟨h1, -, h3, cout, hb, h4⟩ :=
    bn_add_loop_spec y hy.2 32 x 0 (by rw [hx.1]) (by rw [hy.1]) hx.2 (by omega)
  have hr : (bn_add_loop y 32 x 0).take 32 = bn_add_loop y 32 x 0 :=
    List.take_of_length_le (by rw [h1, hx.1])
  have hxt : x.take 32 = x := List.take_of_length_le (by rw [hx.1])
  have hyt : y.take 32 = y := List.take_of_length_le (by rw [hy.1])
  rw [hr] at h3 h4
  rw [hxt, hyt] at h4
  have hlen : (bn_add_loop y 32 x 0).length = 32 := by rw [h1, hx.1]
  have hrlt := beVal_lt _ h3
  rw [hlen] at hrlt
  refine ⟨⟨hlen, h3⟩, ?_⟩
  omega

/-! ## Little-endian digit strings -/

theorem leVal_append (l m : List Nat) :
    leVal (l ++ m) = leVal l + 256 ^ l.length * leVal m := by
  induction l with
  | nil => simp [leVal]
  | cons a l ih =>
    show leVal (a :: (l ++ m)) = _
    simp only [leVal, ih, List.length_cons, pow_succ]
    ring

theorem leVal_lt (l : List Nat) (h : ∀ b ∈ l, b < 256) : leVal l < 256 ^ l.length := by
  induction l with
  | nil => simp [leVal]
  | cons a l ih =>
    have ha : a < 256 := h a (by simp)
    have hl := ih (fun b hb => h b (by simp [hb]))
    simp only [leVal, List.length_cons, pow_succ]
    omega

theorem leVal_reverse (l : List Nat) : leVal l.reverse = beVal l := by
  induction l with
  | nil => simp [leVal, beVal]
  | cons a l ih =>
    rw [List.reverse_cons, leVal_append, ih]
    simp only [leVal, beVal, List.length_reverse]
    ring

theorem beVal_reverse (l : List Nat) : beVal l.reverse = leVal l := by
  have := leVal_reverse l.reverse
  rw [List.reverse_reverse] at this
  exact this.symm

theorem leVal_take_succ (l : List Nat) (j : Nat) (h : j < l.length) :
    leVal (l.take (j + 1)) = leVal (l.take j) + l.getD j 0 * 256 ^ j := by
  rw [take_succ_getD l j h, leVal_append]
  simp only [leVal, List.length_take]
  rw [Nat.min_eq_left (by omega)]
  ring

theorem leVal_set (l : List Nat) (k v : Nat) (h : k < l.length) :
    leVal (l.set k v) + l.getD k 0 * 256 ^ k = leVal l + v * 256 ^ k := by
  induction l generalizing k with
  | nil => simp at h
  | cons a l ih =>
    cases k with
    | zero => simp [leVal]; ring
    | succ k =>
      have := ih k (by simpa using h)
      simp only [List.set_cons_succ, leVal, List.getD_cons_succ, pow_succ]
      linarith

theorem leVal_take_drop (l : List Nat) (n : Nat) (h : n ≤ l.length) :
    leVal l = leVal (l.take n) + 256 ^ n * leVal (l.drop n) := by
  conv_lhs => rw [← List.take_append_drop n l]
  rw [leVal_append, List.length_take, Nat.min_eq_left h]

theorem map_range_getD (l : List Nat) (n : Nat) (h : n ≤ l.length) :
    (List.range n).map (fun i => l.getD i 0) = l.take n := by
  induction n with
  | zero => simp
  | succ n ih =>
    rw [List.range_succ, List.map_append, ih (by omega), take_succ_getD l n (by omega)]
    simp

theorem map_range_rev (l : List Nat) (h : l.length = 32) :
    (List.range 32).map (fun i => l.getD (31 - i) 0) = l.reverse := by
  apply List.ext_getElem
  · simp [h]
  · intro n h1 h2
    have hn : n < 32 := by simpa using h1
    simp only [List.getElem_map, List.getElem_range, List.getElem_reverse]
    rw [List.getD_eq_getElem l 0 (by omega)]
    congr 1
    omega

/-! ## `bn_mul` -/

/-- The body of the double loop in closed form, when the entry it adds to is at
most 510 and the next one at most 255: no store wraps. -/
theorem bn_mul_step_eq (lx ly : List Nat) (i j : Nat) (tmp : List Nat)
    (hk : i + j + 1 < tmp.length) (ha : lx.getD i 0 < 256) (hb : ly.getD j 0 < 256)
    (h0 : tmp.getD (i + j) 0 ≤ 510) (h1 : tmp.getD (i + j + 1) 0 ≤ 255) :
    bn_mul_step lx ly i j tmp =
      ((tmp.set (i + j) (tmp.getD (i + j) 0 + lx.getD i 0 * ly.getD j 0)).set (i + j + 1)
        (tmp.getD (i + j + 1) 0
          + (tmp.getD (i + j) 0 + lx.getD i 0 * ly.getD j 0) / 256)).set (i + j)
        ((tmp.getD (i + j) 0 + lx.getD i 0 * ly.getD j 0) % 256) := by
  have hab : lx.getD i 0 * ly.getD j 0 ≤ 255 * 255 :=
    Nat.mul_le_mul (by omega) (by omega)
  have e1 : (lx.getD i 0 * ly.getD j 0) % 2 ^ 32 = lx.getD i 0 * ly.getD j 0 :=
    Nat.mod_eq_of_lt (by omega)
  have e2 : (tmp.getD (i + j) 0 + lx.getD i 0 * ly.getD j 0) % 65536
      = tmp.getD (i + j) 0 + lx.getD i 0 * ly.getD j 0 := Nat.mod_eq_of_lt (by omega)
  have e3 : (tmp.getD (i + j + 1) 0
      + (tmp.getD (i + j) 0 + lx.getD i 0 * ly.getD j 0) / 256) % 65536
      = tmp.getD (i + j + 1) 0
        + (tmp.getD (i + j) 0 + lx.getD i 0 * ly.getD j 0) / 256 :=
    Nat.mod_eq_of_lt (by omega)
  unfold bn_mul_step
  simp only [e1, e2, and_255, shr_8]
  rw [getD_set_other _ (i + j) (i + j + 1) _ (by omega),
    getD_set_self _ (i + j) _ (by omega), e3,
    getD_set_other _ (i + j + 1) (i + j) _ (by omega),
    getD_set_self _ (i + j) _ (by omega)]

/-- Writing entry `k`, then entry `k + 1`, then entry `k` again. -/
theorem set_pair (tmp : List Nat) (k s w z : Nat) (hk : k + 1 < tmp.length) :
    (((tmp.set k s).set (k + 1) w).set k z).length = tmp.length ∧
    (((tmp.set k s).set (k + 1) w).set k z).getD k 0 = z ∧
    (((tmp.set k s).set (k + 1) w).set k z).getD (k + 1) 0 = w ∧
    (∀ m, m ≠ k → m ≠ k + 1 →
      (((tmp.set k s).set (k + 1) w).set k z).getD m 0 = tmp.getD m 0) ∧
    leVal (((tmp.set k s).set (k + 1) w).set k z)
        + tmp.getD k 0 * 256 ^ k + tmp.getD (k + 1) 0 * 256 ^ (k + 1)
      = leVal tmp + z * 256 ^ k + w * 256 ^ (k + 1) := by
  refine ⟨by simp, ?_, ?_, ?_, ?_⟩
  · exact getD_set_self _ k z (by simp; omega)
  · rw [getD_set_other _ k (k + 1) z (by omega)]
    exact getD_set_self _ (k + 1) w (by simp; omega)
  · intro m h1 h2
    rw [getD_set_other _ k m z h1, getD_set_other _ (k + 1) m w h2,
      getD_set_other _ k m s h1]
  · have a1 := leVal_set tmp k s (by omega)
    have a2 := leVal_set (tmp.set k s) (k + 1) w (by simp; omega)
    have a3 := leVal_set ((tmp.set k s).set (k + 1) w) k z (by simp; omega)
    rw [getD_set_other _ k (k + 1) s (by omega)] at a2
    rw [getD_set_other _ (k + 1) k w (by omega), getD_set_self _ k s (by omega)] at a3
    linarith

/-- One step of the inner loop keeps the invariant and moves it from `(i, j)` to
`(i, j + 1)`. -/
theorem bn_mul_step_inv (lx ly : List Nat) (hlx : ∀ b ∈ lx, b < 256)
    (hly : ∀ b ∈ ly, b < 256) (hlyl : ly.length = 32) (i j : Nat) (hi : i < 32)
    (hj : j < 32) (tmp : List Nat) (h : MulInv lx ly i j tmp) :
    MulInv lx ly i (j + 1) (bn_mul_step lx ly i j tmp) := by
  have ha : lx.getD i 0 < 256 := getD_lt_of_bytes lx hlx i
  have hb : ly.getD j 0 < 256 := getD_lt_of_bytes ly hly j
  have hab : lx.getD i 0 * ly.getD j 0 ≤ 255 * 255 :=
    Nat.mul_le_mul (by omega) (by omega)
  have hlen := h.len
  have h0 := h.cur
  have h1 : tmp.getD (i + j + 1) 0 ≤ 255 := h.small _ (by omega)
  rw [bn_mul_step_eq lx ly i j tmp (by omega) ha hb h0 h1]
  obtain ⟨g1, g2, g3, g4, g5⟩ := set_pair tmp (i + j)
    (tmp.getD (i + j) 0 + lx.getD i 0 * ly.getD j 0)
    (tmp.getD (i + j + 1) 0 + (tmp.getD (i + j) 0 + lx.getD i 0 * ly.getD j 0) / 256)
    ((tmp.getD (i + j) 0 + lx.getD i 0 * ly.getD j 0) % 256) (by omega)
  refine ⟨by rw [g1, hlen], ?_, ?_, ?_, ?_, ?_, ?_⟩
  · intro m hm
    by_cases hmk : m = i + j
    · subst hmk; rw [g2]; omega
    · rw [g4 m hmk (by omega)]; exact h.small m hmk
  · rw [show i + (j + 1) = i + j + 1 by omega, g3]; omega
  · intro hj32
    have hz := h.zero_top hj
    rw [show i + 32 = i + j + 1 by omega, g3]
    rw [show i + 32 = i + j + 1 by omega] at hz
    omega
  · intro m hm
    rw [g4 m (by omega) (by omega)]; exact h.zero m hm
  · intro hj1
    rw [g4 (i + 32) (by omega) (by omega)]; exact h.zero_top hj
  · have hv := h.val
    have hs := Nat.div_add_mod (tmp.getD (i + j) 0 + lx.getD i 0 * ly.getD j 0) 256
    rw [leVal_take_succ ly j (by omega)]
    have hp : (256 : Nat) ^ (i + j + 1) = 256 * 256 ^ (i + j) := by ring
    have hq : (256 : Nat) ^ (i + j) = 256 ^ i * 256 ^ j := by ring
    rw [hp] at g5
    zify at g5 hv hs hq ⊢
    linear_combination g5 + hv + (256 : Int) ^ (i + j) * hs
      + (lx.getD i 0 * ly.getD j 0 : Int) * hq

theorem getD_replicate_zero (n m : Nat) : (List.replicate n 0).getD m 0 = 0 := by
  induction n generalizing m with
  | zero => simp
  | succ n ih =>
    cases m with
    | zero => simp [List.replicate_succ]
    | succ m => simp [List.replicate_succ]

theorem leVal_replicate_zero (n : Nat) : leVal (List.replicate n 0) = 0 := by
  induction n with
  | zero => simp [leVal]
  | succ n ih => simp [List.replicate_succ, leVal, ih]

/-- The inner loop, run for its first `j` iterations. -/
theorem bn_mul_row_steps (lx ly : List Nat) (hlx : ∀ b ∈ lx, b < 256)
    (hly : ∀ b ∈ ly, b < 256) (hlyl : ly.length = 32) (i : Nat) (hi : i < 32)
    (tmp : List Nat) (h : MulInv lx ly i 0 tmp) :
    ∀ j, j ≤ 32 →
      MulInv lx ly i j ((List.range j).foldl (fun t j => bn_mul_step lx ly i j t) tmp) := by
  intro j
  induction j with
  | zero => intro _; exact h
  | succ j ih =>
    intro hj
    rw [List.range_succ, List.foldl_append]
    simp only [List.foldl_cons, List.foldl_nil]
    exact bn_mul_step_inv lx ly hlx hly hlyl i j hi (by omega) _ (ih (by omega))

/-- The end of row `i` is the start of row `i + 1`. -/
theorem mulInv_next_row (lx ly : List Nat) (hlxl : lx.length = 32) (hlyl : ly.length = 32)
    (i : Nat) (hi : i < 32) (tmp : List Nat) (h : MulInv lx ly i 32 tmp) :
    MulInv lx ly (i + 1) 0 tmp := by
  refine ⟨h.len, ?_, ?_, ?_, ?_, ?_, ?_⟩
  · intro m hm
    by_cases h32 : m = i + 32
    · subst h32; exact h.top rfl
    · exact h.small m h32
  · have := h.small (i + 1 + 0) (by omega); omega
  · intro h0; omega
  · intro m hm; exact h.zero m (by omega)
  · intro _; exact h.zero (i + 1 + 32) (by omega)
  · have hv := h.val
    have hyt : ly.take 32 = ly := List.take_of_length_le (by rw [hlyl])
    rw [hyt] at hv
    rw [hv, leVal_take_succ lx i (by omega)]
    simp only [List.take_zero, leVal]
    ring

/-- The whole double loop, run for its first `i` rows. -/
theorem bn_mul_rows (lx ly : List Nat) (hlx : ∀ b ∈ lx, b < 256)
    (hly : ∀ b ∈ ly, b < 256) (hlxl : lx.length = 32) (hlyl : ly.length = 32) :
    ∀ i, i ≤ 32 →
      MulInv lx ly i 0
        ((List.range i).foldl (fun t i => bn_mul_row lx ly i t) (List.replicate 64 0)) := by
  intro i
  induction i with
  | zero =>
    intro _
    show MulInv lx ly 0 0 (List.replicate 64 0)
    refine ⟨List.length_replicate 64 0, ?_, ?_, ?_, ?_, ?_, ?_⟩
    · intro m _; rw [getD_replicate_zero]; omega
    · rw [getD_replicate_zero]; omega
    · intro _; rw [getD_replicate_zero]; omega
    · intro m _; exact getD_replicate_zero 64 m
    · intro _; exact getD_replicate_zero 64 _
    · rw [leVal_replicate_zero]
      simp only [List.take_zero, leVal, Nat.zero_mul, Nat.mul_zero, Nat.add_zero]
  | succ i ih =>
    intro hi
    rw [List.range_succ, List.foldl_append]
    simp only [List.foldl_cons, List.foldl_nil]
    exact mulInv_next_row lx ly hlxl hlyl i (by omega) _
      (bn_mul_row_steps lx ly hlx hly hlyl i (by omega) _ (ih (by omega)) 32 le_rfl)

theorem isBn_reverse (x : List Nat) (hx : IsBn x) : IsBn x.reverse :=
  ⟨by rw [List.length_reverse, hx.1], fun b hb => hx.2 b (List.mem_reverse.1 hb)⟩

/-- On well-formed operands `bn_mul` yields the low 256 bits of the product. -/
theorem bn_mul_full (x y : List Nat) (hx : IsBn x) (hy : IsBn y) :
    IsBn (bn_mul x y) ∧ beVal (bn_mul x y) = (beVal x * beVal y) % 2 ^ 256 := by
  have hrx := isBn_reverse x hx
  have hry := isBn_reverse y hy
  have hinv : MulInv x.reverse y.reverse 32 0 (bn_mul_tmp x.reverse y.reverse) :=
    bn_mul_rows x.reverse y.reverse hrx.2 hry.2 hrx.1 hry.1 32 le_rfl
  have hunf : bn_mul x y =
      (List.range 32).map (fun i =>
        ((List.range 32).map
          (fun i => (bn_mul_tmp x.reverse y.reverse).getD i 0 &&& 0xff)).getD (31 - i) 0) := by
    unfold bn_mul
    simp only [map_range_rev x hx.1, map_range_rev y hy.1]
  have hlow : (List.range 32).map
      (fun i => (bn_mul_tmp x.reverse y.reverse).getD i 0 &&& 0xff)
      = (bn_mul_tmp x.reverse y.reverse).take 32 := by
    rw [← map_range_getD _ 32 (by rw [hinv.len]; omega)]
    apply List.map_congr_left
    intro m hm
    have hm32 : m < 32 := List.mem_range.1 hm
    have := hinv.small m (by omega)
    rw [and_255]
    exact Nat.mod_eq_of_lt (by
      have h2 : (bn_mul_tmp x.reverse y.reverse).getD m 0 ≤ 255 := this
      omega)
  have hlen : (bn_mul_tmp x.reverse y.reverse).length = 64 := hinv.len
  have htl : ((bn_mul_tmp x.reverse y.reverse).take 32).length = 32 := by
    rw [List.length_take, hlen]; rfl
  have hbytes : ∀ b ∈ (bn_mul_tmp x.reverse y.reverse).take 32, b < 256 := by
    intro b hb
    rw [← map_range_getD _ 32 (by rw [hlen]; omega)] at hb
    obtain ⟨m, hm, rfl⟩ := List.mem_map.1 hb
    have hm32 : m < 32 := List.mem_range.1 hm
    have h2 : (bn_mul_tmp x.reverse y.reverse).getD m 0 ≤ 255 := hinv.small m (by omega)
    omega
  rw [hunf, hlow, map_range_rev _ htl]
  refine ⟨isBn_reverse _ ⟨htl, hbytes⟩, ?_⟩
  rw [beVal_reverse]
  have hval : leVal (bn_mul_tmp x.reverse y.reverse) = beVal x * beVal y := by
    have hv := hinv.val
    rw [List.take_of_length_le (by rw [hrx.1]), leVal_reverse, leVal_reverse,
      List.take_zero] at hv
    have hnil : leVal [] = 0 := rfl
    rw [hnil, Nat.mul_zero, Nat.add_zero] at hv
    exact hv
  have hsplit := leVal_take_drop (bn_mul_tmp x.reverse y.reverse) 32 (by rw [hlen]; omega)
  have hlt := leVal_lt _ hbytes
  rw [htl] at hlt
  rw [← hval, hsplit]
  have e : (256 : Nat) ^ 32 = 2 ^ 256 := by norm_num
  rw [e] at hlt ⊢
  rw [Nat.add_mul_mod_self_left, Nat.mod_eq_of_lt hlt]

/-! ## `xor_key` -/

theorem ext_getD (l m : List Nat) (hlen : l.length = m.length)
    (h : ∀ k, k < l.length → l.getD k 0 = m.getD k 0) : l = m := by
  apply List.ext_getElem hlen
  intro n h1 h2
  have := h n h1
  rwa [List.getD_eq_getElem l 0 h1, List.getD_eq_getElem m 0 h2] at this

/-- The first `len` entries of the buffer are XORed with the repeating key, the
rest is left alone. -/
theorem xor_key_getD (data key32 : List Nat) :
    ∀ len, len ≤ data.length →
      (xor_key data len key32).length = data.length ∧
      ∀ m, (xor_key data len key32).getD m 0 =
        if m < len then (data.getD m 0 ^^^ key32.getD (m % 32) 0) % 256
        else data.getD m 0 := by
  intro len
  induction len with
  | zero => intro _; exact ⟨rfl, fun m => by simp [xor_key]⟩
  | succ n ih =>
    intro hn
    obtain ⟨h1, h2⟩ := ih (by omega)
    have hunf : xor_key data (n + 1) key32 =
        (xor_key data n key32).set n
          (((xor_key data n key32).getD n 0 ^^^ key32.getD (n % 32) 0) % 256) := by
      unfold xor_key
      rw [List.range_succ, List.foldl_append]
      rfl
    rw [hunf]
    refine ⟨by rw [List.length_set, h1], ?_⟩
    intro m
    by_cases hm : m = n
    · subst hm
      rw [getD_set_self _ m _ (by omega), h2 m, if_neg (by omega), if_pos (by omega)]
    · rw [getD_set_other _ n m _ hm, h2 m]
      by_cases hlt : m < n
      · rw [if_pos hlt, if_pos (by omega)]
      · rw [if_neg hlt, if_neg (by omega)]

theorem xor_byte_cancel (d k : Nat) (hd : d < 256) (hk : k < 256) :
    ((d ^^^ k) % 256 ^^^ k) % 256 = d := by
  have h1 : d ^^^ k < 2 ^ 8 := Nat.xor_lt_two_pow (by omega) (by omega)
  have h2 : (d ^^^ k) % 256 = d ^^^ k := Nat.mod_eq_of_lt (by omega)
  rw [h2, Nat.xor_cancel_right, Nat.mod_eq_of_lt hd]

/-- A masked 32-byte buffer is again a well-formed 32-byte buffer. -/
theorem xor_key_isBn (data key32 : List Nat) (hd : IsBn data) :
    IsBn (xor_key data 32 key32) := by
  obtain ⟨h1, h2⟩ := xor_key_getD data key32 32 (by rw [hd.1])
  refine ⟨by rw [h1, hd.1], ?_⟩
  intro b hb
  obtain ⟨n, hn, rfl⟩ := List.mem_iff_getElem.1 hb
  have := h2 n
  rw [List.getD_eq_getElem _ 0 hn] at this
  rw [this]
  split_ifs
  · exact Nat.mod_lt _ (by omega)
  · exact getD_lt_of_bytes data hd.2 n

/-- Masking twice with the same 32-byte key gives the buffer back. -/
theorem xor_key_twice (data key32 : List Nat) (hd : IsBn data) (hk : IsBn key32) :
    xor_key (xor_key data 32 key32) 32 key32 = data := by
  obtain ⟨h1, h2⟩ := xor_key_getD data key32 32 (by rw [hd.1])
  obtain ⟨g1, g2⟩ := xor_key_getD (xor_key data 32 key32) key32 32 (by rw [h1, hd.1])
  apply ext_getD _ _ (by rw [g1, h1])
  intro m hm
  have hm32 : m < 32 := by rw [g1, h1, hd.1] at hm; exact hm
  rw [g2 m, if_pos hm32, h2 m, if_pos hm32]
  exact xor_byte_cancel _ _ (getD_lt_of_bytes data hd.2 m) (getD_lt_of_bytes key32 hk.2 _)

/-! ## The claims -/

/-- C1 (fails on the code): the table `SECP256K1_P`, read as a 32-byte big-endian
integer, is `2^256 - 2^64 - 977 * 2^32`, the secp256k1 prime shifted left by 32
bits with its top 32 bits dropped; it is not `2^256 - 2^32 - 977`, and it is even. -/
theorem secp256k1_p_value :
    IsBn SECP256K1_P ∧
    beVal SECP256K1_P = 2 ^ 256 - 2 ^ 64 - 977 * 2 ^ 32 ∧
    beVal SECP256K1_P ≠ 2 ^ 256 - 2 ^ 32 - 977 ∧
    beVal SECP256K1_P % 2 = 0 := by decide

/-- C2 (fails on the code): at `a = p - 1`, `b = 2`, both below the program's
modulus `p`, `bn_mul` followed by `bn_mod` leaves `p - 2 - (2^256 - p)`, which is
neither `(a * b) mod p` nor `p - 2`. -/
theorem step_prod_near_modulus :
    IsBn p_minus_1 ∧ beVal p_minus_1 = beVal bn_p - 1 ∧
    IsBn (bnOfByte 2) ∧ beVal (bnOfByte 2) = 2 ∧
    step_prod 2 p_minus_1 (bnOfByte 2) =
      some [0xff,0xff,0xff,0xff,0xff,0xff,0xff,0xff,
            0xff,0xff,0xff,0xff,0xff,0xff,0xff,0xff,
            0xff,0xff,0xff,0xff,0xff,0xff,0xff,0xfd,
            0xff,0xff,0xf8,0x5d,0xff,0xff,0xff,0xfe] ∧
    beVal [0xff,0xff,0xff,0xff,0xff,0xff,0xff,0xff,
           0xff,0xff,0xff,0xff,0xff,0xff,0xff,0xff,
           0xff,0xff,0xff,0xff,0xff,0xff,0xff,0xfd,
           0xff,0xff,0xf8,0x5d,0xff,0xff,0xff,0xfe]
      = beVal bn_p - 2 - (2 ^ 256 - beVal bn_p) ∧
    (beVal p_minus_1 * beVal (bnOfByte 2)) % beVal bn_p = beVal bn_p - 2 ∧
    beVal bn_p - 2 - (2 ^ 256 - beVal bn_p) ≠ beVal bn_p - 2 := by decide!

/-- C3 (fails on the code): at `prod = 0`, `r = 1`, both below the program's
modulus, the share is `d = 2^256 - 1 - p` and re-summing gives `2^256 - p`, not
`prod`. -/
theorem split_resum_fails :
    IsBn (bnOfByte 0) ∧ beVal (bnOfByte 0) = 0 ∧
    IsBn (bnOfByte 1) ∧ beVal (bnOfByte 1) = 1 ∧
    step_d 2 (bnOfByte 0) (bnOfByte 1) =
      some [0,0,0,0,0,0,0,0, 0,0,0,0,0,0,0,0,
            0,0,0,0,0,0,0,1, 0,0,0x03,0xd0,0xff,0xff,0xff,0xff] ∧
    step_sum 2 (bnOfByte 1)
        [0,0,0,0,0,0,0,0, 0,0,0,0,0,0,0,0,
         0,0,0,0,0,0,0,1, 0,0,0x03,0xd0,0xff,0xff,0xff,0xff] =
      some [0,0,0,0,0,0,0,0, 0,0,0,0,0,0,0,0,
            0,0,0,0,0,0,0,1, 0,0,0x03,0xd1,0,0,0,0] ∧
    beVal [0,0,0,0,0,0,0,0, 0,0,0,0,0,0,0,0,
           0,0,0,0,0,0,0,1, 0,0,0x03,0xd1,0,0,0,0] = 2 ^ 256 - beVal bn_p ∧
    [0,0,0,0,0,0,0,0, 0,0,0,0,0,0,0,0,
     0,0,0,0,0,0,0,1, 0,0,0x03,0xd1,0,0,0,0] ≠ bnOfByte 0 := by decide!

/-- C4 (fails on the code): at `x = y = p - 1`, both below the program's modulus,
`bn_add` followed by `bn_mod` leaves `2p - 2 - 2^256`, not `(x + y) mod p = p - 2`:
the carry out of the top byte is lost before the reduction. The pair is one `main`
reaches: `c = r = p - 1` and `d = p - 1` when `prod` is the product of C2. -/
theorem step_sum_drops_carry :
    IsBn p_minus_1 ∧ beVal p_minus_1 = beVal bn_p - 1 ∧
    step_sum 2 p_minus_1 p_minus_1 =
      some [0xff,0xff,0xff,0xff,0xff,0xff,0xff,0xff,
            0xff,0xff,0xff,0xff,0xff,0xff,0xff,0xff,
            0xff,0xff,0xff,0xff,0xff,0xff,0xff,0xfd,
            0xff,0xff,0xf8,0x5d,0xff,0xff,0xff,0xfe] ∧
    beVal [0xff,0xff,0xff,0xff,0xff,0xff,0xff,0xff,
           0xff,0xff,0xff,0xff,0xff,0xff,0xff,0xff,
           0xff,0xff,0xff,0xff,0xff,0xff,0xff,0xfd,
           0xff,0xff,0xf8,0x5d,0xff,0xff,0xff,0xfe]
      = 2 * beVal bn_p - 2 - 2 ^ 256 ∧
    (beVal p_minus_1 + beVal p_minus_1) % beVal bn_p = beVal bn_p - 2 ∧
    2 * beVal bn_p - 2 - 2 ^ 256 ≠ beVal bn_p - 2 ∧
    step_d 2 [0xff,0xff,0xff,0xff,0xff,0xff,0xff,0xff,
              0xff,0xff,0xff,0xff,0xff,0xff,0xff,0xff,
              0xff,0xff,0xff,0xff,0xff,0xff,0xff,0xfd,
              0xff,0xff,0xf8,0x5d,0xff,0xff,0xff,0xfe] p_minus_1 = some p_minus_1 := by
  decide!

/-- C5: for every 32-byte value `x`, `bn_mod(x, p)` with the program's modulus
returns (two loop tests are enough) and leaves the 32-byte big-endian encoding of
`(value of x) mod p`. -/
theorem bn_mod_residue (x : List Nat) (hx : IsBn x) (fuel : Nat) (hf : 2 ≤ fuel) :
    ∃ r, bn_mod fuel x bn_p = some r ∧ IsBn r ∧ beVal r = beVal x % beVal bn_p := by
  obtain ⟨r, h1, h2, h3, -⟩ := bn_mod_reduce fuel hf x hx
  exact ⟨r, h1, h2, h3⟩

/-- Witness of C5 at the largest 256-bit value, which needs one subtraction. -/
theorem bn_mod_residue_witness :
    IsBn bn_max ∧ 2 ≤ 2 ∧
    ∃ r, bn_mod 2 bn_max bn_p = some r ∧ IsBn r ∧ beVal r = beVal bn_max % beVal bn_p :=
  ⟨by decide, by decide, bn_mod_residue bn_max (by decide) 2 (by decide)⟩

/-- C6: for every 32-byte array `x`, reducing by the program's modulus lands
strictly below the modulus, and reducing the result again returns it unchanged. -/
theorem bn_mod_idempotent (x : List Nat) (hx : IsBn x) (fuel : Nat) (hf : 2 ≤ fuel) :
    ∃ r, bn_mod fuel x bn_p = some r ∧ bn_mod fuel r bn_p = some r ∧
      beVal r < beVal bn_p := by
  obtain ⟨r, h1, h2, -, h4⟩ := bn_mod_reduce fuel hf x hx
  obtain ⟨g, rfl⟩ : ∃ g, fuel = g + 1 := ⟨fuel - 1, by omega⟩
  exact ⟨r, h1, bn_mod_of_lt g r h2 h4, h4⟩

/-- Witness of C6 at the largest 256-bit value. -/
theorem bn_mod_idempotent_witness :
    IsBn bn_max ∧ 2 ≤ 3 ∧
    ∃ r, bn_mod 3 bn_max bn_p = some r ∧ bn_mod 3 r bn_p = some r ∧
      beVal r < beVal bn_p :=
  ⟨by decide, by decide, bn_mod_idempotent bn_max (by decide) 3 (by decide)⟩

/-- C7: field closure. For all 32-byte `x` and `y` (in particular for all `x`, `y`
below the program's modulus) modular addition, modular subtraction and modular
multiplication as `main` performs them each return a 32-byte value strictly below
the modulus. -/
theorem field_closure (x y : List Nat) (hx : IsBn x) (hy : IsBn y)
    (fuel : Nat) (hf : 2 ≤ fuel) :
    (∃ s, step_sum fuel x y = some s ∧ IsBn s ∧ beVal s < beVal bn_p) ∧
    (∃ d, step_d fuel x y = some d ∧ IsBn d ∧ beVal d < beVal bn_p) ∧
    (∃ m, step_prod fuel x y = some m ∧ IsBn m ∧ beVal m < beVal bn_p) := by
  refine ⟨?_, ?_, ?_⟩
  · obtain ⟨r, h1, h2, -, h4⟩ := bn_mod_reduce fuel hf _ (bn_add_full x y hx hy).1
    exact ⟨r, h1, h2, h4⟩
  · obtain ⟨r, h1, h2, -, h4⟩ := bn_mod_reduce fuel hf _ (bn_sub_full x y hx hy).1
    exact ⟨r, h1, h2, h4⟩
  · obtain ⟨r, h1, h2, -, h4⟩ := bn_mod_reduce fuel hf _ (bn_mul_full x y hx hy).1
    exact ⟨r, h1, h2, h4⟩

/-- Witness of C7 at `x = p - 1`, `y = 2`. -/
theorem field_closure_witness :
    (IsBn p_minus_1 ∧ beVal p_minus_1 < beVal bn_p) ∧
    (IsBn (bnOfByte 2) ∧ beVal (bnOfByte 2) < beVal bn_p) ∧ 2 ≤ 2 ∧
    (∃ s, step_sum 2 p_minus_1 (bnOfByte 2) = some s ∧ IsBn s ∧ beVal s < beVal bn_p) ∧
    (∃ d, step_d 2 p_minus_1 (bnOfByte 2) = some d ∧ IsBn d ∧ beVal d < beVal bn_p) ∧
    (∃ m, step_prod 2 p_minus_1 (bnOfByte 2) = some m ∧ IsBn m ∧ beVal m < beVal bn_p) :=
  ⟨by decide, by decide, by decide,
    field_closure p_minus_1 (bnOfByte 2) (by decide) (by decide) 2 (by decide)⟩

/-- C8: mask involution. For every 32-byte `data` and every 32-byte `key`,
applying `xor_key` twice with the same key returns the original data. -/
theorem mask_involution (data key : List Nat) (hd : IsBn data) (hk : IsBn key) :
    xor_key (xor_key data 32 key) 32 key = data :=
  xor_key_twice data key hd hk

/-- Witness of C8 at `data = 5` and the key `0x01` repeated 32 times. -/
theorem mask_involution_witness :
    IsBn (bnOfByte 5) ∧ IsBn (List.replicate 32 1) ∧
    xor_key (xor_key (bnOfByte 5) 32 (List.replicate 32 1)) 32 (List.replicate 32 1)
      = bnOfByte 5 :=
  ⟨by decide, by decide,
    mask_involution (bnOfByte 5) (List.replicate 32 1) (by decide) (by decide)⟩

/-- C9: for every pair of 32-byte big-endian values `x` and `y`, `bn_mul(x, y)`
writes the 32-byte big-endian encoding of `(x * y) mod 2^256`. -/
theorem bn_mul_low256 (x y : List Nat) (hx : IsBn x) (hy : IsBn y) :
    IsBn (bn_mul x y) ∧ beVal (bn_mul x y) = (beVal x * beVal y) % 2 ^ 256 :=
  bn_mul_full x y hx hy

/-- Witness of C9 at `x = y = 2^256 - 1`. -/
theorem bn_mul_low256_witness :
    IsBn bn_max ∧
    IsBn (bn_mul bn_max bn_max) ∧
    beVal (bn_mul bn_max bn_max) = (beVal bn_max * beVal bn_max) % 2 ^ 256 :=
  ⟨by decide, bn_mul_low256 bn_max bn_max (by decide) (by decide)⟩

/-- C10: for every pair of 32-byte big-endian values `x` and `y`, `bn_add(x, y)`
leaves the 32-byte big-endian encoding of `(x + y) mod 2^256`. -/
theorem bn_add_wraps (x y : List Nat) (hx : IsBn x) (hy : IsBn y) :
    IsBn (bn_add x y) ∧ beVal (bn_add x y) = (beVal x + beVal y) % 2 ^ 256 :=
  bn_add_full x y hx hy

/-- Witness of C10 at `x = 2^256 - 1`, `y = 1`, where the carry leaves the top byte. -/
theorem bn_add_wraps_witness :
    IsBn bn_max ∧ IsBn (bnOfByte 1) ∧
    IsBn (bn_add bn_max (bnOfByte 1)) ∧
    beVal (bn_add bn_max (bnOfByte 1)) = (beVal bn_max + beVal (bnOfByte 1)) % 2 ^ 256 :=
  ⟨by decide, by decide, bn_add_wraps bn_max (bnOfByte 1) (by decide) (by decide)⟩

/-! ## Further auxiliary facts -/

/-- The little-endian copy made by `bn_mul` is the reversed buffer. -/
theorem bn_mul_le_eq (x : List Nat) (hx : IsBn x) : bn_mul_le x = x.reverse :=
  map_range_rev x hx.1

/-- Two byte strings of the same length with the same big-endian value are equal. -/
theorem beVal_inj : ∀ (x y : List Nat), x.length = y.length →
    (∀ b ∈ x, b < 256) → (∀ b ∈ y, b < 256) → beVal x = beVal y → x = y := by
  intro x
  induction x with
  | nil =>
    intro y hl _ _ _
    cases y with
    | nil => rfl
    | cons b bs => simp at hl
  | cons a as ih =>
    intro y hl hbx hby hv
    cases y with
    | nil => simp at hl
    | cons b bs =>
      have hl2 : as.length = bs.length := by simpa using hl
      have hA := beVal_lt as (fun c hc => hbx c (by simp [hc]))
      have hB := beVal_lt bs (fun c hc => hby c (by simp [hc]))
      rw [hl2] at hA
      simp only [beVal, hl2] at hv
      have hab : a = b := by
        rcases Nat.lt_trichotomy a b with hlt | heq | hgt
        · have h1 : (a + 1) * 256 ^ bs.length ≤ b * 256 ^ bs.length :=
            Nat.mul_le_mul_right _ hlt
          have h2 : (a + 1) * 256 ^ bs.length = a * 256 ^ bs.length + 256 ^ bs.length := by
            ring
          omega
        · exact heq
        · have h1 : (b + 1) * 256 ^ bs.length ≤ a * 256 ^ bs.length :=
            Nat.mul_le_mul_right _ hgt
          have h2 : (b + 1) * 256 ^ bs.length = b * 256 ^ bs.length + 256 ^ bs.length := by
            ring
          omega
      subst hab
      have : as = bs := ih bs hl2 (fun c hc => hbx c (by simp [hc]))
        (fun c hc => hby c (by simp [hc])) (by omega)
      rw [this]

/-- The counter does not change what `bn_mod` returns. -/
theorem bn_mod_count_fst (p : List Nat) :
    ∀ (fuel : Nat) (x : List Nat),
      (bn_mod_count fuel x p).map Prod.fst = bn_mod fuel x p := by
  intro fuel
  induction fuel with
  | zero => intro x; rfl
  | succ fuel ih =>
    intro x
    simp only [bn_mod_count, bn_mod]
    split_ifs with h
    · rw [← ih (bn_mod_sub p 32 x 0)]
      cases bn_mod_count fuel (bn_mod_sub p 32 x 0) p <;> rfl
    · rfl

/-- With the program's modulus the loop body of `bn_mod` runs at most once. -/
theorem bn_mod_count_le_one (fuel : Nat) (hf : 2 ≤ fuel) (x : List Nat) (hx : IsBn x) :
    ∃ r n, bn_mod_count fuel x bn_p = some (r, n) ∧ n ≤ 1 ∧
      (n = 0 ↔ beVal x < beVal bn_p) := by
  obtain ⟨g, rfl⟩ : ∃ g, fuel = g + 2 := ⟨fuel - 2, by omega⟩
  have hP := beVal_bn_p
  have hxlt := beVal_lt x hx.2
  rw [hx.1] at hxlt
  have hcmp := bn_cmp_ge_iff x bn_p hx bn_p_isBn
  by_cases hlt : beVal x < beVal bn_p
  · have hn : ¬ bn_cmp x bn_p ≥ 0 := fun hge => by
      have := hcmp.1 hge
      omega
    refine ⟨x, 0, ?_, by omega, by simp [hlt]⟩
    show bn_mod_count (g + 1 + 1) x bn_p = _
    simp only [bn_mod_count, if_neg hn]
  · have hge : bn_cmp x bn_p ≥ 0 := hcmp.2 (by omega)
    obtain ⟨hbn, hval⟩ := bn_mod_sub_full x bn_p hx bn_p_isBn
    rw [if_pos (by omega)] at hval
    have hlt2 : beVal (bn_mod_sub bn_p 32 x 0) < beVal bn_p := by omega
    have hn2 : ¬ bn_cmp (bn_mod_sub bn_p 32 x 0) bn_p ≥ 0 := fun h => by
      have := (bn_cmp_ge_iff _ bn_p hbn bn_p_isBn).1 h
      omega
    refine ⟨bn_mod_sub bn_p 32 x 0, 1, ?_, le_rfl, by simp [hlt]⟩
    show bn_mod_count (g + 1 + 1) x bn_p = _
    simp only [bn_mod_count, if_pos hge, if_neg hn2, Option.map_some']

/-! ## `bn_mul`: the 16-bit accumulators against unbounded ones -/

/-- Under the bounds of the invariant the wrapping loop body and the unbounded one
write the same values. -/
theorem bn_mul_step_wide_eq (lx ly : List Nat) (i j : Nat) (tmp : List Nat)
    (hk : i + j + 1 < tmp.length) (ha : lx.getD i 0 < 256) (hb : ly.getD j 0 < 256)
    (h0 : tmp.getD (i + j) 0 ≤ 510) (h1 : tmp.getD (i + j + 1) 0 ≤ 255) :
    bn_mul_step_wide lx ly i j tmp = bn_mul_step lx ly i j tmp := by
  rw [bn_mul_step_eq lx ly i j tmp hk ha hb h0 h1]
  unfold bn_mul_step_wide
  simp only [and_255, shr_8]
  rw [getD_set_other _ (i + j) (i + j + 1) _ (by omega),
    getD_set_self _ (i + j) _ (by omega),
    getD_set_other _ (i + j + 1) (i + j) _ (by omega),
    getD_set_self _ (i + j) _ (by omega)]

/-- The two inner loops agree on a row that starts in a state of the invariant. -/
theorem bn_mul_row_wide_steps (lx ly : List Nat) (hlx : ∀ b ∈ lx, b < 256)
    (hly : ∀ b ∈ ly, b < 256) (hlyl : ly.length = 32) (i : Nat) (hi : i < 32)
    (tmp : List Nat) (h : MulInv lx ly i 0 tmp) :
    ∀ j, j ≤ 32 →
      (List.range j).foldl (fun t j => bn_mul_step_wide lx ly i j t) tmp =
      (List.range j).foldl (fun t j => bn_mul_step lx ly i j t) tmp := by
  intro j
  induction j with
  | zero => intro _; simp only [List.range_zero, List.foldl_nil]
  | succ j ih =>
    intro hj
    have hinv := bn_mul_row_steps lx ly hlx hly hlyl i hi tmp h j (by omega)
    rw [List.range_succ, List.foldl_append, List.foldl_append, ih (by omega)]
    simp only [List.foldl_cons, List.foldl_nil]
    exact bn_mul_step_wide_eq lx ly i j _ (by rw [hinv.len]; omega)
      (getD_lt_of_bytes lx hlx i) (getD_lt_of_bytes ly hly j) hinv.cur
      (hinv.small _ (by omega))

/-- The two double loops agree after every number of rows. -/
theorem bn_mul_rows_wide (lx ly : List Nat) (hlx : ∀ b ∈ lx, b < 256)
    (hly : ∀ b ∈ ly, b < 256) (hlxl : lx.length = 32) (hlyl : ly.length = 32) :
    ∀ i, i ≤ 32 →
      (List.range i).foldl (fun t i => bn_mul_row_wide lx ly i t) (List.replicate 64 0) =
      (List.range i).foldl (fun t i => bn_mul_row lx ly i t) (List.replicate 64 0) := by
  intro i
  induction i with
  | zero => intro _; simp only [List.range_zero, List.foldl_nil]
  | succ i ih =>
    intro hi
    have hinv := bn_mul_rows lx ly hlx hly hlxl hlyl i (by omega)
    rw [List.range_succ, List.foldl_append, List.foldl_append, ih (by omega)]
    simp only [List.foldl_cons, List.foldl_nil]
    exact bn_mul_row_wide_steps lx ly hlx hly hlyl i (by omega) _ hinv 32 le_rfl

/-- The state of `tmp` before the loop body runs at `(i, j)` satisfies the
invariant. -/
theorem bn_mul_state_inv (lx ly : List Nat) (hlx : ∀ b ∈ lx, b < 256)
    (hly : ∀ b ∈ ly, b < 256) (hlxl : lx.length = 32) (hlyl : ly.length = 32)
    (i j : Nat) (hi : i < 32) (hj : j ≤ 32) :
    MulInv lx ly i j (bn_mul_state lx ly i j) :=
  bn_mul_row_steps lx ly hlx hly hlyl i hi _
    (bn_mul_rows lx ly hlx hly hlxl hlyl i (by omega)) j hj

/-- On well-formed operands the unbounded `bn_mul` returns what `bn_mul` returns. -/
theorem bn_mul_wide_eq (x y : List Nat) (hx : IsBn x) (hy : IsBn y) :
    bn_mul_wide x y = bn_mul x y := by
  have hrx := isBn_reverse x hx
  have hry := isBn_reverse y hy
  have h := bn_mul_rows_wide x.reverse y.reverse hrx.2 hry.2 hrx.1 hry.1 32 le_rfl
  have htmp : bn_mul_tmp_wide x.reverse y.reverse = bn_mul_tmp x.reverse y.reverse := h
  unfold bn_mul_wide bn_mul
  simp only [map_range_rev x hx.1, map_range_rev y hy.1, htmp]

/-- The state before `(i, j + 1)` is the loop body applied to the state before
`(i, j)`. -/
theorem bn_mul_state_step (lx ly : List Nat) (i j : Nat) :
    bn_mul_state lx ly i (j + 1) = bn_mul_step lx ly i j (bn_mul_state lx ly i j) := by
  unfold bn_mul_state
  rw [List.range_succ, List.foldl_append]
  simp only [List.foldl_cons, List.foldl_nil]

/-- The state at the start of row `i + 1` is the state at the end of row `i`. -/
theorem bn_mul_state_row (lx ly : List Nat) (i : Nat) :
    bn_mul_state lx ly (i + 1) 0 = bn_mul_state lx ly i 32 := by
  unfold bn_mul_state
  rw [List.range_succ, List.foldl_append]
  simp only [List.foldl_cons, List.foldl_nil, List.range_zero]
  rfl

/-- The array the double loop leaves is the state after the last row. -/
theorem bn_mul_state_final (lx ly : List Nat) :
    bn_mul_tmp lx ly = bn_mul_state lx ly 32 0 := by
  unfold bn_mul_state bn_mul_tmp
  simp only [List.range_zero, List.foldl_nil]

/-! ## The split check -/

theorem beVal_bn_p_lit : beVal bn_p =
    115792089237316195423570985008687907853269984665640564039439137259643237040128 := by
  decide

/-- The values of the share `d` and of the check sum for operands below the
program's modulus. -/
theorem split_values (fuel : Nat) (hf : 2 ≤ fuel) (prod r : List Nat)
    (hprod : IsBn prod) (hr : IsBn r) :
    ∃ d s, step_d fuel prod r = some d ∧ step_sum fuel r d = some s ∧ IsBn d ∧ IsBn s ∧
      beVal d = (if beVal r ≤ beVal prod then beVal prod - beVal r
        else beVal prod + 2 ^ 256 - beVal r) % beVal bn_p ∧
      beVal s = ((beVal r + beVal d) % 2 ^ 256) % beVal bn_p := by
  obtain ⟨hsb, hsv⟩ := bn_sub_full prod r hprod hr
  obtain ⟨d, hd1, hd2, hd3, -⟩ := bn_mod_reduce fuel hf _ hsb
  obtain ⟨hab, hav⟩ := bn_add_full r d hr hd2
  obtain ⟨s, hs1, hs2, hs3, -⟩ := bn_mod_reduce fuel hf _ hab
  refine ⟨d, s, hd1, hs1, hd2, hs2, ?_, ?_⟩
  · rw [hd3, hsv]
  · rw [hs3, hav]

/-- The split check in terms of values: for `prod`, `r` below the program's modulus
the check sum has the value of `prod` exactly when `r <= prod` or
`r - prod > 2^256 - p`. -/
theorem split_check_value (fuel : Nat) (hf : 2 ≤ fuel) (prod r : List Nat)
    (hprod : IsBn prod) (hr : IsBn r) (hpl : beVal prod < beVal bn_p)
    (hrl : beVal r < beVal bn_p) :
    ∃ d s, step_d fuel prod r = some d ∧ step_sum fuel r d = some s ∧ IsBn s ∧
      (beVal s = beVal prod ↔
        (beVal r ≤ beVal prod ∨ beVal r - beVal prod > 2 ^ 256 - beVal bn_p)) := by
  obtain ⟨d, s, h1, h2, -, h4, h5, h6⟩ := split_values fuel hf prod r hprod hr
  refine ⟨d, s, h1, h2, h4, ?_⟩
  have hP := beVal_bn_p
  rw [h6]
  generalize beVal d = D at h5 ⊢
  generalize beVal prod = A at h5 hpl ⊢
  generalize beVal r = R at h5 hrl ⊢
  generalize beVal bn_p = P at h5 hpl hrl hP ⊢
  by_cases hle : R ≤ A
  · rw [if_pos hle, Nat.mod_eq_of_lt (by omega)] at h5
    have e1 : R + D = A := by omega
    rw [e1, Nat.mod_eq_of_lt (show A < 2 ^ 256 by omega), Nat.mod_eq_of_lt hpl]
    exact ⟨fun _ => Or.inl hle, fun _ => rfl⟩
  · rw [if_neg hle] at h5
    by_cases hgap : R - A ≤ 2 ^ 256 - P
    · have hD : D = A + 2 ^ 256 - R - P := by
        rw [h5, Nat.mod_eq_sub_mod (by omega), Nat.mod_eq_of_lt (by omega)]
      have e1 : R + D = A + (2 ^ 256 - P) := by omega
      rw [e1, Nat.mod_eq_of_lt (show A + (2 ^ 256 - P) < 2 ^ 256 by omega)]
      constructor
      · intro h
        exfalso
        by_cases h2 : A + (2 ^ 256 - P) < P
        · rw [Nat.mod_eq_of_lt h2] at h; omega
        · rw [Nat.mod_eq_sub_mod (by omega), Nat.mod_eq_of_lt (by omega)] at h; omega
      · intro h; omega
    · have hD : D = A + 2 ^ 256 - R := by rw [h5, Nat.mod_eq_of_lt (by omega)]
      have e1 : R + D = A + 2 ^ 256 := by omega
      rw [e1, Nat.add_mod_right, Nat.mod_eq_of_lt (show A < 2 ^ 256 by omega),
        Nat.mod_eq_of_lt hpl]
      exact ⟨fun _ => Or.inr (by omega), fun _ => rfl⟩

/-! ## The digest output and complete runs of `main` -/

theorem isBn_set (x : List Nat) (i v : Nat) (hx : IsBn x) (hv : v < 256) :
    IsBn (x.set i v) :=
  ⟨by rw [List.length_set, hx.1], bytes_set x i v hx.2 hv⟩

theorem foldl_keeps (P : List Nat → Prop) (f : List Nat → Nat → List Nat)
    (hf : ∀ acc n, P acc → P (f acc n)) :
    ∀ (l : List Nat) (acc : List Nat), P acc → P (l.foldl f acc) := by
  intro l
  induction l with
  | nil => intro acc h; exact h
  | cons n l ih => intro acc h; exact ih (f acc n) (hf acc n h)

/-- Whatever the state words are, the output loop of `toy_sha256_final` fills a
well-formed 32-byte buffer. -/
theorem toy_sha256_out_isBn (state : List Nat) : IsBn (toy_sha256_out state) := by
  unfold toy_sha256_out
  apply foldl_keeps IsBn
  · intro acc j h
    exact isBn_set _ _ _ (isBn_set _ _ _ (isBn_set _ _ _ (isBn_set _ _ _ h
      (Nat.mod_lt _ (by omega))) (Nat.mod_lt _ (by omega))) (Nat.mod_lt _ (by omega)))
      (Nat.mod_lt _ (by omega))
  · decide

/-- The masking key that `main` derives is a well-formed 32-byte buffer. -/
theorem toy_sha256_isBn (data : List Nat) (len : Nat) : IsBn (toy_sha256 data len) := by
  simp only [toy_sha256, toy_sha256_final]
  exact toy_sha256_out_isBn _

/-- A run of `main` in which the four random requests succeed, on 32-byte answers:
every `bn_mod` loop ends, the unmasked shares are the shares, and the run ends with
status 0 after printing the four values and the verdict of the check. -/
theorem main_complete (fuel : Nat) (hf : 2 ≤ fuel) (a_raw b_raw r_raw key : List Nat)
    (rest : List (Option (List Nat)))
    (ha : IsBn a_raw) (hb : IsBn b_raw) (hr : IsBn r_raw) :
    ∃ bn_a bn_b bn_prod bn_r bn_d sum,
      bn_mod fuel a_raw bn_p = some bn_a ∧ bn_mod fuel b_raw bn_p = some bn_b ∧
      step_prod fuel bn_a bn_b = some bn_prod ∧ bn_mod fuel r_raw bn_p = some bn_r ∧
      step_d fuel bn_prod bn_r = some bn_d ∧ step_sum fuel bn_r bn_d = some sum ∧
      main fuel (some a_raw :: some b_raw :: some r_raw :: some key :: rest) =
        some { exit := 0, requests := 4, stderr := [],
               stdout := [Line.a bn_a, Line.b bn_b,
                          Line.enc_c (xor_key bn_r 32 (toy_sha256 key 32)),
                          Line.enc_d (xor_key bn_d 32 (toy_sha256 key 32)),
                          if bn_cmp sum bn_prod = 0 then Line.success else Line.fail],
               vars := { a := some bn_a, b := some bn_b, prod := some bn_prod,
                         r := some bn_r, c := some bn_r, d := some bn_d,
                         hashed_key := some (toy_sha256 key 32),
                         c_masked := some (xor_key bn_r 32 (toy_sha256 key 32)),
                         d_masked := some (xor_key bn_d 32 (toy_sha256 key 32)),
                         check_c := some bn_r, check_d := some bn_d,
                         sum := some sum } } := by
  obtain ⟨bn_a, ha1, ha2, -, -⟩ := bn_mod_reduce fuel hf a_raw ha
  obtain ⟨bn_b, hb1, hb2, -, -⟩ := bn_mod_reduce fuel hf b_raw hb
  obtain ⟨bn_prod, hp1, hp2, -, -⟩ :=
    bn_mod_reduce fuel hf _ (bn_mul_full bn_a bn_b ha2 hb2).1
  obtain ⟨bn_r, hr1, hr2, -, -⟩ := bn_mod_reduce fuel hf r_raw hr
  obtain ⟨bn_d, hd1, hd2, -, -⟩ :=
    bn_mod_reduce fuel hf _ (bn_sub_full bn_prod bn_r hp2 hr2).1
  obtain ⟨sum, hs1, -, -, -⟩ :=
    bn_mod_reduce fuel hf _ (bn_add_full bn_r bn_d hr2 hd2).1
  have hk := toy_sha256_isBn key 32
  have hxc := xor_key_twice bn_r (toy_sha256 key 32) hr2 hk
  have hxd := xor_key_twice bn_d (toy_sha256 key 32) hd2 hk
  refine ⟨bn_a, bn_b, bn_prod, bn_r, bn_d, sum, ha1, hb1, hp1, hr1, hd1, hs1, ?_⟩
  simp only [bn_p, bn_read_be] at ha1 hb1 hp1 hr1 hd1 hs1
  simp only [main, get_random_bytes, bn_read_be, bn_write_be, bn_copy, ha1, hb1, hp1, hr1,
    hd1, hxc, hxd, hs1, List.cons_append, List.nil_append]

/-! ## The claims, continued -/

/-- C11: for every pair of 32-byte big-endian values `x` and `y`, `bn_sub(x, y)`
leaves the 32-byte encoding of `x - y` when `x >= y` and of `x - y + 2^256` when
`x < y`. -/
theorem bn_sub_wraps (x y : List Nat) (hx : IsBn x) (hy : IsBn y) :
    IsBn (bn_sub x y) ∧
    (beVal y ≤ beVal x → beVal (bn_sub x y) = beVal x - beVal y) ∧
    (beVal x < beVal y → beVal (bn_sub x y) = beVal x + 2 ^ 256 - beVal y) := by
  obtain ⟨h1, h2⟩ := bn_sub_full x y hx hy
  refine ⟨h1, ?_, ?_⟩
  · intro hle; rw [h2, if_pos hle]
  · intro hlt; rw [h2, if_neg (by omega)]

/-- Witness of C11 at `x = 0`, `y = 1`, where the borrow leaves the top byte. -/
theorem bn_sub_wraps_witness :
    IsBn (bnOfByte 0) ∧ IsBn (bnOfByte 1) ∧
    IsBn (bn_sub (bnOfByte 0) (bnOfByte 1)) ∧
    (beVal (bnOfByte 1) ≤ beVal (bnOfByte 0) →
      beVal (bn_sub (bnOfByte 0) (bnOfByte 1)) = beVal (bnOfByte 0) - beVal (bnOfByte 1)) ∧
    (beVal (bnOfByte 0) < beVal (bnOfByte 1) →
      beVal (bn_sub (bnOfByte 0) (bnOfByte 1))
        = beVal (bnOfByte 0) + 2 ^ 256 - beVal (bnOfByte 1)) :=
  ⟨by decide, by decide, bn_sub_wraps (bnOfByte 0) (bnOfByte 1) (by decide) (by decide)⟩

/-- C12: for every pair of 32-byte big-endian values `x` and `y`, `bn_cmp(x, y)` is
negative iff `value(x) < value(y)`, zero iff the values are equal, and positive iff
`value(x) > value(y)`. -/
theorem bn_cmp_numeric (x y : List Nat) (hx : IsBn x) (hy : IsBn y) :
    (bn_cmp x y < 0 ↔ beVal x < beVal y) ∧
    (bn_cmp x y = 0 ↔ beVal x = beVal y) ∧
    (bn_cmp x y > 0 ↔ beVal x > beVal y) := by
  obtain ⟨h1, h2⟩ := memcmp_sign x y 32 hx.1 hy.1 hx.2 hy.2
  unfold bn_cmp
  refine ⟨h1, h2, ?_⟩
  constructor
  · intro hpos
    by_contra hn
    rcases Nat.lt_or_eq_of_le (Nat.le_of_not_lt hn) with hlt | heq
    · have := h1.2 hlt; omega
    · have := h2.2 heq; omega
  · intro hgt
    by_contra hn
    rcases lt_or_eq_of_le (not_lt.1 hn) with hlt | heq
    · have := h1.1 hlt; omega
    · have := h2.1 heq; omega

/-- Witness of C12 at `x = p - 1` and `y = 2^256 - 1`. -/
theorem bn_cmp_numeric_witness :
    IsBn p_minus_1 ∧ IsBn bn_max ∧
    (bn_cmp p_minus_1 bn_max < 0 ↔ beVal p_minus_1 < beVal bn_max) ∧
    (bn_cmp p_minus_1 bn_max = 0 ↔ beVal p_minus_1 = beVal bn_max) ∧
    (bn_cmp p_minus_1 bn_max > 0 ↔ beVal p_minus_1 > beVal bn_max) :=
  ⟨by decide, by decide, bn_cmp_numeric p_minus_1 bn_max (by decide) (by decide)⟩

/-- C17: for every 32-byte value `x`, the loop of `bn_mod(x, p)` with the program's
modulus terminates (two tests of the loop condition are enough), its body runs at
most once, and the value of `x` is below `2 * p`. -/
theorem bn_mod_one_subtraction (x : List Nat) (hx : IsBn x) (fuel : Nat) (hf : 2 ≤ fuel) :
    beVal x < 2 * beVal bn_p ∧
    ∃ r n, bn_mod_count fuel x bn_p = some (r, n) ∧ bn_mod fuel x bn_p = some r ∧
      n ≤ 1 := by
  have hxlt := beVal_lt x hx.2
  rw [hx.1] at hxlt
  have hP := beVal_bn_p_lit
  refine ⟨by omega, ?_⟩
  obtain ⟨r, n, h1, h2, -⟩ := bn_mod_count_le_one fuel hf x hx
  refine ⟨r, n, h1, ?_, h2⟩
  rw [← bn_mod_count_fst, h1]
  rfl

/-- Witness of C17 at the largest 256-bit value. -/
theorem bn_mod_one_subtraction_witness :
    IsBn bn_max ∧ 2 ≤ 2 ∧ beVal bn_max < 2 * beVal bn_p ∧
    ∃ r n, bn_mod_count 2 bn_max bn_p = some (r, n) ∧ bn_mod 2 bn_max bn_p = some r ∧
      n ≤ 1 :=
  ⟨by decide, by decide, bn_mod_one_subtraction bn_max (by decide) 2 (by decide)⟩

/-- C18: for every pair of 32-byte inputs, at every step `(i, j)` of the double loop
of `bn_mul` the sums `tmp[i+j] + prod` and `tmp[i+j+1] + carry` are at most 65535,
and `bn_mul` with wrapping 16-bit accumulators equals `bn_mul` with unbounded
accumulators. -/
theorem bn_mul_no_overflow (x y : List Nat) (hx : IsBn x) (hy : IsBn y) :
    (∀ i j, i < 32 → j < 32 →
      (bn_mul_state (bn_mul_le x) (bn_mul_le y) i j).getD (i + j) 0
        + (bn_mul_le x).getD i 0 * (bn_mul_le y).getD j 0 ≤ 65535 ∧
      (bn_mul_state (bn_mul_le x) (bn_mul_le y) i j).getD (i + j + 1) 0
        + (((bn_mul_state (bn_mul_le x) (bn_mul_le y) i j).getD (i + j) 0
            + (bn_mul_le x).getD i 0 * (bn_mul_le y).getD j 0) >>> 8) ≤ 65535) ∧
    bn_mul x y = bn_mul_wide x y := by
  have hrx := isBn_reverse x hx
  have hry := isBn_reverse y hy
  refine ⟨?_, (bn_mul_wide_eq x y hx hy).symm⟩
  intro i j hi hj
  rw [bn_mul_le_eq x hx, bn_mul_le_eq y hy]
  have hinv := bn_mul_state_inv x.reverse y.reverse hrx.2 hry.2 hrx.1 hry.1 i j hi (by omega)
  have ha : x.reverse.getD i 0 < 256 := getD_lt_of_bytes _ hrx.2 i
  have hb : y.reverse.getD j 0 < 256 := getD_lt_of_bytes _ hry.2 j
  have hab : x.reverse.getD i 0 * y.reverse.getD j 0 ≤ 255 * 255 :=
    Nat.mul_le_mul (by omega) (by omega)
  have h0 := hinv.cur
  have h1 := hinv.small (i + j + 1) (by omega)
  rw [shr_8]
  constructor
  · omega
  · omega

/-- Witness of C18 at `x = y = 2^256 - 1`, the operands with the largest digits. -/
theorem bn_mul_no_overflow_witness :
    IsBn bn_max ∧
    (∀ i j, i < 32 → j < 32 →
      (bn_mul_state (bn_mul_le bn_max) (bn_mul_le bn_max) i j).getD (i + j) 0
        + (bn_mul_le bn_max).getD i 0 * (bn_mul_le bn_max).getD j 0 ≤ 65535 ∧
      (bn_mul_state (bn_mul_le bn_max) (bn_mul_le bn_max) i j).getD (i + j + 1) 0
        + (((bn_mul_state (bn_mul_le bn_max) (bn_mul_le bn_max) i j).getD (i + j) 0
            + (bn_mul_le bn_max).getD i 0 * (bn_mul_le bn_max).getD j 0) >>> 8) ≤ 65535) ∧
    bn_mul bn_max bn_max = bn_mul_wide bn_max bn_max :=
  ⟨by decide, bn_mul_no_overflow bn_max bn_max (by decide) (by decide)⟩

/-- C19: for every `prod` and `r` below the program's modulus `p`, the share `d` and
the check sum are computed, and the check `bn_cmp(sum, prod) == 0` (equivalently
`sum == prod` as byte arrays) holds if and only if `r <= prod` or
`r - prod > 2^256 - p`. -/
theorem split_check_iff (fuel : Nat) (hf : 2 ≤ fuel) (prod r : List Nat)
    (hprod : IsBn prod) (hr : IsBn r) (hpl : beVal prod < beVal bn_p)
    (hrl : beVal r < beVal bn_p) :
    ∃ d s, step_d fuel prod r = some d ∧ step_sum fuel r d = some s ∧
      (bn_cmp s prod = 0 ↔
        (beVal r ≤ beVal prod ∨ beVal r - beVal prod > 2 ^ 256 - beVal bn_p)) ∧
      (s = prod ↔
        (beVal r ≤ beVal prod ∨ beVal r - beVal prod > 2 ^ 256 - beVal bn_p)) := by
  obtain ⟨d, s, h1, h2, h3, h4⟩ := split_check_value fuel hf prod r hprod hr hpl hrl
  have hc := (memcmp_sign s prod 32 h3.1 hprod.1 h3.2 hprod.2).2
  refine ⟨d, s, h1, h2, ?_, ?_⟩
  · unfold bn_cmp
    rw [hc]; exact h4
  · rw [← h4]
    constructor
    · intro h; rw [h]
    · intro h; exact beVal_inj s prod (by rw [h3.1, hprod.1]) h3.2 hprod.2 h

/-- Witness of C19 at `prod = 0`, `r = 1`, on the failing side of the condition. -/
theorem split_check_iff_witness :
    2 ≤ 2 ∧ IsBn (bnOfByte 0) ∧ IsBn (bnOfByte 1) ∧
    beVal (bnOfByte 0) < beVal bn_p ∧ beVal (bnOfByte 1) < beVal bn_p ∧
    ∃ d s, step_d 2 (bnOfByte 0) (bnOfByte 1) = some d ∧
      step_sum 2 (bnOfByte 1) d = some s ∧
      (bn_cmp s (bnOfByte 0) = 0 ↔
        (beVal (bnOfByte 1) ≤ beVal (bnOfByte 0) ∨
          beVal (bnOfByte 1) - beVal (bnOfByte 0) > 2 ^ 256 - beVal bn_p)) ∧
      (s = bnOfByte 0 ↔
        (beVal (bnOfByte 1) ≤ beVal (bnOfByte 0) ∨
          beVal (bnOfByte 1) - beVal (bnOfByte 0) > 2 ^ 256 - beVal bn_p)) :=
  ⟨by decide, by decide, by decide, by decide, by decide,
    split_check_iff 2 (by decide) (bnOfByte 0) (bnOfByte 1) (by decide) (by decide)
      (by decide) (by decide)⟩

/-- C13: the digest (`toy_sha256_init`, `toy_sha256_update`, `toy_sha256_final`)
gives the standard SHA-256 values on the 3-byte input "abc" and on the 56-byte
input whose padding spills into a second block. -/
theorem toy_sha256_test_vectors :
    asciiBytes "abc" = [0x61, 0x62, 0x63] ∧
    hexBytes "ba7816bf" = [0xba, 0x78, 0x16, 0xbf] ∧
    toy_sha256 (asciiBytes "abc") 3 =
      hexBytes "ba7816bf8f01cfea414140de5dae2223b00361a396177a9cb410ff61f20015ad" ∧
    (asciiBytes "abcdbcdecdefdefgefghfghighijhijkijkljklmklmnlmnomnopnopq").length = 56 ∧
    toy_sha256 (asciiBytes "abcdbcdecdefdefgefghfghighijhijkijkljklmklmnlmnomnopnopq") 56 =
      hexBytes "248d6a61d20638b8e5c026930c3e6039a33ce45964ff2167f6ecedd419db06c1" := by
  decide!

/-- The run of `main` on the answers `a_raw = 1`, `b_raw = 2`, `r_raw = 0` and a zero
ephemeral key, evaluated in full; the values are listed in the order `a`, `b`,
`prod`, `r`, `c`, `d`, `hashed_key`, `c_masked`, `d_masked`, `check_c`, `check_d`,
`sum`. -/
theorem main_fixed_run :
    (main 2 [some (bnOfByte 1), some (bnOfByte 2), some (bnOfByte 0),
        some (List.replicate 32 0)]).map
      (fun run => (run.exit, run.requests, run.stdout, run.vars.toList)) =
      some (0, 4,
        [Line.a (bnOfByte 1), Line.b (bnOfByte 2),
         Line.enc_c (hexBytes
           "66687aadf862bd776c8fc18b8e9f8e20089714856ee233b3902a591d0d5f2925"),
         Line.enc_d (hexBytes
           "66687aadf862bd776c8fc18b8e9f8e20089714856ee233b3902a591d0d5f2927"),
         Line.success],
        [some (bnOfByte 1), some (bnOfByte 2), some (bnOfByte 2), some (bnOfByte 0),
         some (bnOfByte 0), some (bnOfByte 2),
         some (hexBytes
           "66687aadf862bd776c8fc18b8e9f8e20089714856ee233b3902a591d0d5f2925"),
         some (hexBytes
           "66687aadf862bd776c8fc18b8e9f8e20089714856ee233b3902a591d0d5f2925"),
         some (hexBytes
           "66687aadf862bd776c8fc18b8e9f8e20089714856ee233b3902a591d0d5f2927"),
         some (bnOfByte 0), some (bnOfByte 2), some (bnOfByte 2)]) := by
  decide!

/-- C14: with `a = 1`, `b = 2`, `r = 0` the steps of `main` give `prod = 2`, `c = 0`,
`d = 2`; `xor_key` with the all-zero key leaves `c` and `d` unchanged; the check sum
is 2 and `bn_cmp(sum, prod) == 0`. The run of `main` on these three answers (and a
zero ephemeral key, whose digest is the mask) computes the same values, unmasks to
`c` and `d`, prints the success line and returns 0. -/
theorem end_to_end_fixed :
    (step_prod 2 (bnOfByte 1) (bnOfByte 2) = some (bnOfByte 2) ∧
     bn_copy (bnOfByte 0) = bnOfByte 0 ∧
     step_d 2 (bnOfByte 2) (bnOfByte 0) = some (bnOfByte 2) ∧
     xor_key (bnOfByte 0) 32 (List.replicate 32 0) = bnOfByte 0 ∧
     xor_key (bnOfByte 2) 32 (List.replicate 32 0) = bnOfByte 2 ∧
     step_sum 2 (bnOfByte 0) (bnOfByte 2) = some (bnOfByte 2) ∧
     bn_cmp (bnOfByte 2) (bnOfByte 2) = 0) ∧
    (main 2 [some (bnOfByte 1), some (bnOfByte 2), some (bnOfByte 0),
        some (List.replicate 32 0)]).map
      (fun run => (run.exit, run.requests, run.stdout, run.vars.toList)) =
      some (0, 4,
        [Line.a (bnOfByte 1), Line.b (bnOfByte 2),
         Line.enc_c (hexBytes
           "66687aadf862bd776c8fc18b8e9f8e20089714856ee233b3902a591d0d5f2925"),
         Line.enc_d (hexBytes
           "66687aadf862bd776c8fc18b8e9f8e20089714856ee233b3902a591d0d5f2927"),
         Line.success],
        [some (bnOfByte 1), some (bnOfByte 2), some (bnOfByte 2), some (bnOfByte 0),
         some (bnOfByte 0), some (bnOfByte 2),
         some (hexBytes
           "66687aadf862bd776c8fc18b8e9f8e20089714856ee233b3902a591d0d5f2925"),
         some (hexBytes
           "66687aadf862bd776c8fc18b8e9f8e20089714856ee233b3902a591d0d5f2925"),
         some (hexBytes
           "66687aadf862bd776c8fc18b8e9f8e20089714856ee233b3902a591d0d5f2927"),
         some (bnOfByte 0), some (bnOfByte 2), some (bnOfByte 2)]) :=
  ⟨by decide!, main_fixed_run⟩

/-- C15 (fails on the code): on the answers `a_raw = 0`, `b_raw = 0`, `r_raw = 1`
and a zero ephemeral key all four random requests succeed, the check fails
(`sum = 2^256 - p`, `prod = 0`, the failure line is printed), and the exit status
is 0. -/
theorem exit_zero_on_failed_check :
    (main 2 [some (bnOfByte 0), some (bnOfByte 0), some (bnOfByte 1),
        some (List.replicate 32 0)]).map
      (fun run => (run.requests, run.vars.prod, run.vars.sum, run.stdout.getLast?,
        run.exit)) =
      some (4, some (bnOfByte 0),
        some [0,0,0,0,0,0,0,0, 0,0,0,0,0,0,0,0,
              0,0,0,0,0,0,0,1, 0,0,0x03,0xd1,0,0,0,0],
        some Line.fail, 0) ∧
    bn_cmp [0,0,0,0,0,0,0,0, 0,0,0,0,0,0,0,0,
            0,0,0,0,0,0,0,1, 0,0,0x03,0xd1,0,0,0,0] (bnOfByte 0) ≠ 0 := by
  decide!

/-- C15 as amended: when the four random requests succeed (on 32-byte answers), the
run ends with exit status 0 whatever the check gives; the outcome of the check is
reported by the last line printed, the success line iff `bn_cmp(sum, prod) == 0`
and the failure line otherwise. -/
theorem exit_status_complete_run (fuel : Nat) (hf : 2 ≤ fuel)
    (a_raw b_raw r_raw key : List Nat) (rest : List (Option (List Nat)))
    (ha : IsBn a_raw) (hb : IsBn b_raw) (hr : IsBn r_raw) :
    ∃ run sum prod,
      main fuel (some a_raw :: some b_raw :: some r_raw :: some key :: rest) = some run ∧
      run.requests = 4 ∧ run.exit = 0 ∧
      run.vars.sum = some sum ∧ run.vars.prod = some prod ∧
      run.stdout.getLast? =
        some (if bn_cmp sum prod = 0 then Line.success else Line.fail) := by
  obtain ⟨bn_a, bn_b, bn_prod, bn_r, bn_d, sum, -, -, -, -, -, -, hm⟩ :=
    main_complete fuel hf a_raw b_raw r_raw key rest ha hb hr
  exact ⟨_, sum, bn_prod, hm, rfl, rfl, rfl, rfl, rfl⟩

/-- Witness of the amended C15 on the answers of the failing run. -/
theorem exit_status_complete_run_witness :
    2 ≤ 2 ∧ IsBn (bnOfByte 0) ∧ IsBn (bnOfByte 1) ∧
    ∃ run sum prod,
      main 2 (some (bnOfByte 0) :: some (bnOfByte 0) :: some (bnOfByte 1)
        :: some (List.replicate 32 0) :: []) = some run ∧
      run.requests = 4 ∧ run.exit = 0 ∧
      run.vars.sum = some sum ∧ run.vars.prod = some prod ∧
      run.stdout.getLast? =
        some (if bn_cmp sum prod = 0 then Line.success else Line.fail) :=
  ⟨by decide, by decide, by decide,
    exit_status_complete_run 2 (by decide) (bnOfByte 0) (bnOfByte 0) (bnOfByte 1)
      (List.replicate 32 0) [] (by decide) (by decide) (by decide)⟩

/-- C16: if the first random request fails (or the source has no answer at all),
`main` ends with exit status 1 after that single request, with the RNG-failure
message on the error stream, nothing printed (no `a`, `b`, `c_masked`, `d_masked`)
and no arithmetic value computed; this holds for every amount of fuel, zero
included, so no `bn_mod` loop was entered. -/
theorem rng_failure_first (fuel : Nat) (rest : List (Option (List Nat))) :
    main fuel (none :: rest) =
      some { exit := 1, requests := 1, stderr := ["RNG fail.\n"], stdout := [],
             vars := { a := none, b := none, prod := none, r := none, c := none,
                       d := none, hashed_key := none, c_masked := none,
                       d_masked := none, check_c := none, check_d := none,
                       sum := none } } ∧
    main fuel [] =
      some { exit := 1, requests := 1, stderr := ["RNG fail.\n"], stdout := [],
             vars := { a := none, b := none, prod := none, r := none, c := none,
                       d := none, hashed_key := none, c_masked := none,
                       d_masked := none, check_c := none, check_d := none,
                       sum := none } } :=
  ⟨rfl, rfl⟩

/-- C20: for all 32-byte `a_raw`, `b_raw`, `r_raw` and any two ephemeral keys `k1`,
`k2` (32-byte ones in particular), the two runs of `main` compute the same `prod`,
`c`, `d` and `sum`, unmask to the same shares, end with the same exit status and
print the same verdict. -/
theorem verdict_independent_of_key (fuel : Nat) (hf : 2 ≤ fuel)
    (a_raw b_raw r_raw k1 k2 : List Nat)
    (ha : IsBn a_raw) (hb : IsBn b_raw) (hr : IsBn r_raw) :
    ∃ run1 run2 prod c d sum verdict,
      main fuel [some a_raw, some b_raw, some r_raw, some k1] = some run1 ∧
      main fuel [some a_raw, some b_raw, some r_raw, some k2] = some run2 ∧
      run1.vars.prod = some prod ∧ run2.vars.prod = some prod ∧
      run1.vars.c = some c ∧ run2.vars.c = some c ∧
      run1.vars.d = some d ∧ run2.vars.d = some d ∧
      run1.vars.check_c = some c ∧ run2.vars.check_c = some c ∧
      run1.vars.check_d = some d ∧ run2.vars.check_d = some d ∧
      run1.vars.sum = some sum ∧ run2.vars.sum = some sum ∧
      run1.stdout.getLast? = some verdict ∧ run2.stdout.getLast? = some verdict ∧
      run1.exit = run2.exit ∧
      run1.vars.c_masked = some (xor_key c 32 (toy_sha256 k1 32)) ∧
      run2.vars.c_masked = some (xor_key c 32 (toy_sha256 k2 32)) ∧
      run1.vars.d_masked = some (xor_key d 32 (toy_sha256 k1 32)) ∧
      run2.vars.d_masked = some (xor_key d 32 (toy_sha256 k2 32)) := by
  obtain ⟨a1, b1, p1, r1, d1, s1, ha1, hb1, hp1, hr1, hd1, hs1, hm1⟩ :=
    main_complete fuel hf a_raw b_raw r_raw k1 [] ha hb hr
  obtain ⟨a2, b2, p2, r2, d2, s2, ha2, hb2, hp2, hr2, hd2, hs2, hm2⟩ :=
    main_complete fuel hf a_raw b_raw r_raw k2 [] ha hb hr
  have ea : a1 = a2 := Option.some.inj (ha1.symm.trans ha2)
  subst ea
  have eb : b1 = b2 := Option.some.inj (hb1.symm.trans hb2)
  subst eb
  have ep : p1 = p2 := Option.some.inj (hp1.symm.trans hp2)
  subst ep
  have er : r1 = r2 := Option.some.inj (hr1.symm.trans hr2)
  subst er
  have ed : d1 = d2 := Option.some.inj (hd1.symm.trans hd2)
  subst ed
  have es : s1 = s2 := Option.some.inj (hs1.symm.trans hs2)
  subst es
  exact ⟨_, _, p1, r1, d1, s1, (if bn_cmp s1 p1 = 0 then Line.success else Line.fail),
    hm1, hm2, rfl, rfl, rfl, rfl, rfl, rfl, rfl, rfl,
    rfl, rfl, rfl, rfl, rfl, rfl, rfl, rfl, rfl, rfl, rfl⟩

/-- Witness of C20 at `a_raw = 1`, `b_raw = 2`, `r_raw = 0` with the all-zero and
the all-one key. -/
theorem verdict_independent_of_key_witness :
    2 ≤ 2 ∧ IsBn (bnOfByte 1) ∧ IsBn (bnOfByte 2) ∧ IsBn (bnOfByte 0) ∧
    ∃ run1 run2 prod c d sum verdict,
      main 2 [some (bnOfByte 1), some (bnOfByte 2), some (bnOfByte 0),
        some (List.replicate 32 0)] = some run1 ∧
      main 2 [some (bnOfByte 1), some (bnOfByte 2), some (bnOfByte 0),
        some (List.replicate 32 1)] = some run2 ∧
      run1.vars.prod = some prod ∧ run2.vars.prod = some prod ∧
      run1.vars.c = some c ∧ run2.vars.c = some c ∧
      run1.vars.d = some d ∧ run2.vars.d = some d ∧
      run1.vars.check_c = some c ∧ run2.vars.check_c = some c ∧
      run1.vars.check_d = some d ∧ run2.vars.check_d = some d ∧
      run1.vars.sum = some sum ∧ run2.vars.sum = some sum ∧
      run1.stdout.getLast? = some verdict ∧ run2.stdout.getLast? = some verdict ∧
      run1.exit = run2.exit ∧
      run1.vars.c_masked = some (xor_key c 32 (toy_sha256 (List.replicate 32 0) 32)) ∧
      run2.vars.c_masked = some (xor_key c 32 (toy_sha256 (List.replicate 32 1) 32)) ∧
      run1.vars.d_masked = some (xor_key d 32 (toy_sha256 (List.replicate 32 0) 32)) ∧
      run2.vars.d_masked = some (xor_key d 32 (toy_sha256 (List.replicate 32 1) 32)) :=
  ⟨by decide, by decide, by decide, by decide,
    verdict_independent_of_key 2 (by decide) (bnOfByte 1) (bnOfByte 2) (bnOfByte 0)
      (List.replicate 32 0) (List.replicate 32 1) (by decide) (by decide) (by decide)⟩

end Mta
